import Mathlib

/- Verification of the eviolite evolutionary-computation library.

   Shallow embedding conventions:
   - Rust f64 fitness values are modelled as integers (ℤ): every claim about
     fitness only depends on exact comparisons and on ring arithmetic, both of
     which f64 performs exactly on small integers.  Crowding distances, which
     the source can drive to +inf or NaN through division by zero, are
     modelled by the dedicated type Fl below.  Probabilities are rationals.
   - Rust Vec<T> is List, in-place mutation is explicit state passing, and a
     function that can panic returns Option (none = panic).
   - A population of solutions with MultiObjective<M> fitness is represented
     by the list of the solutions' objective vectors, because every embedded
     operation observes a solution only through evaluate(). -/

namespace Eviolite

/-- Objective j of an objective vector (entry j of a MultiObjective's
weighted [f64; M] array). -/
def fitAt (v : List ℤ) (j : ℕ) : ℤ := v.getD j 0

/-- Result of the dominance comparison, from src/select/nsga.rs. -/
inductive DomOrdering
  | AOverB
  | BOverA
  | Neither
deriving DecidableEq

/-- Embedding of cmp_dom_f64_slices (src/select/nsga.rs lines 230-249): one
pass over the M objectives setting the a_win flag (first component) whenever
b[i] > a[i] fails and the b_win flag (second component) whenever it holds. -/
def cmp_dom_f64_slices (M : ℕ) (a b : List ℤ) : DomOrdering :=
  let w := (List.range M).foldl
    (fun (w : Bool × Bool) i =>
      if fitAt a i < fitAt b i then (w.1, true) else (true, w.2))
    (false, false)
  if w.1 && !w.2 then DomOrdering.AOverB
  else if w.2 && !w.1 then DomOrdering.BOverA
  else DomOrdering.Neither

/-- Dominance as the source comparator decides it: strictly greater in every
objective (an equal entry sets the other side's win flag, so a tie in any
objective yields Neither). -/
def StrictDom (M : ℕ) (a b : List ℤ) : Prop :=
  ∀ j < M, fitAt b j < fitAt a j

/-- Dominance as the specification's sentence defines it: at least as good in
every objective and strictly better in at least one. -/
def SpecDom (M : ℕ) (a b : List ℤ) : Prop :=
  (∀ j < M, fitAt b j ≤ fitAt a j) ∧ ∃ j < M, fitAt b j < fitAt a j

instance (M : ℕ) (a b : List ℤ) : Decidable (StrictDom M a b) := by
  unfold StrictDom; infer_instance

instance (M : ℕ) (a b : List ℤ) : Decidable (SpecDom M a b) := by
  unfold SpecDom; infer_instance

lemma cmp_dom_flags (M : ℕ) (a b : List ℤ) (w0 : Bool × Bool) :
    (List.range M).foldl
      (fun (w : Bool × Bool) i =>
        if fitAt a i < fitAt b i then (w.1, true) else (true, w.2))
      w0 =
    ((w0.1 || (List.range M).any (fun i => ! decide (fitAt a i < fitAt b i))),
     (w0.2 || (List.range M).any (fun i => decide (fitAt a i < fitAt b i)))) := by
  induction M generalizing w0 with
  | zero => simp
  | succ m ih =>
      rw [List.range_succ, List.foldl_append, List.any_append, List.any_append]
      rw [ih]
      simp only [List.foldl_cons, List.foldl_nil, List.any_cons, List.any_nil]
      by_cases h : fitAt a m < fitAt b m <;>
        simp [h, Bool.or_assoc, Bool.or_comm, Bool.or_left_comm]

lemma cmp_dom_eq_BOverA_iff (M : ℕ) (hM : 0 < M) (a b : List ℤ) :
    cmp_dom_f64_slices M a b = DomOrdering.BOverA ↔ StrictDom M b a := by
  unfold cmp_dom_f64_slices
  rw [cmp_dom_flags]
  simp only [Bool.false_or]
  have hA : ((List.range M).any (fun i => ! decide (fitAt a i < fitAt b i)) = false) ↔
      ∀ i < M, fitAt a i < fitAt b i := by
    simp [List.any_eq_false]
  have hB : ((List.range M).any (fun i => decide (fitAt a i < fitAt b i)) = true) ↔
      ∃ i < M, fitAt a i < fitAt b i := by
    simp [List.any_eq_true]
  constructor
  · intro h
    cases hAv : (List.range M).any (fun i => ! decide (fitAt a i < fitAt b i)) with
    | false => exact fun i hi => hA.mp hAv i hi
    | true =>
        exfalso
        rw [hAv] at h
        cases hBv : (List.range M).any (fun i => decide (fitAt a i < fitAt b i)) with
        | false => rw [hBv] at h; simp at h
        | true => rw [hBv] at h; simp at h
  · intro hsd
    have hAf : (List.range M).any (fun i => ! decide (fitAt a i < fitAt b i)) = false :=
      hA.mpr (fun i hi => hsd i hi)
    have hBt : (List.range M).any (fun i => decide (fitAt a i < fitAt b i)) = true :=
      hB.mpr ⟨0, hM, hsd 0 hM⟩
    rw [hAf, hBt]
    simp

/-! ### FitnessBasic (src/stats.rs lines 53-67)

The generation is represented by the list of the members' collapsed
(Into<f64>) fitness values. -/

/-- Embedding of FitnessBasic::analyze.  Note that the source sums the
fitness values into the field named mean without dividing by the length, and
then sums the squared deviations from that sum. -/
def fitnessBasicAnalyze (gen : List ℤ) : ℤ × ℤ :=
  let mean : ℤ := gen.sum
  let variance : ℤ := (gen.map (fun x => (x - mean) ^ 2)).sum
  (mean, variance)

/-- C8: FitnessBasic::analyze does not compute the arithmetic mean: on the
two-member generation with collapsed fitness values 1 and 3 the code stores
mean = 4 (the raw sum) and variance = 10, while the claimed arithmetic mean
is (1 + 3) / 2 = 2 and the claimed sum of squared deviations from it is
(1-2)^2 + (3-2)^2 = 2. -/
theorem C8_fitnessBasic_mean_is_sum :
    fitnessBasicAnalyze [1, 3] = (4, 10) ∧
    ([1, 3] : List ℤ).sum / ([1, 3] : List ℤ).length = 2 ∧
    (([1, 3] : List ℤ).map (fun x => (x - 2) ^ 2)).sum = 2 ∧
    (4 : ℤ) ≠ 2 ∧ (10 : ℤ) ≠ 2 := by
  refine ⟨by decide, by decide, by decide, by decide, by decide⟩

/-! ### Cached wrapper (src/utils/cached.rs)

The user solution type is abstract: a state type sigma together with the
three Solution operations.  evaluate is pure (a function of the state), as
the Solution contract demands; mutate and crossover are modelled by
arbitrary functions on states, which covers every deterministic-in-context
behaviour of the stochastic operators. -/

/-- Operations of a user Solution implementation. -/
structure SolOps (σ F : Type) where
  ev : σ → F
  mu : σ → σ
  cx : σ → σ → σ × σ

/-- State of a Cached<T> wrapper: the inner solution plus the
interior-mutable fitness slot. -/
structure CachedW (σ F : Type) where
  inner : σ
  fitness : Option F

/-- Embedding of Cached::new. -/
def CachedW.new (s : σ) : CachedW σ F := ⟨s, none⟩

/-- Embedding of Cached::clear_cache: empties the slot and returns the old
contents. -/
def CachedW.clear_cache (c : CachedW σ F) : CachedW σ F × Option F :=
  ({ c with fitness := none }, c.fitness)

/-- Embedding of Cached's evaluate: return the cached value if present, else
compute inner's fitness, store it and return it.  The returned pair is
(result, wrapper state after the interior write). -/
def CachedW.evaluate (S : SolOps σ F) (c : CachedW σ F) : F × CachedW σ F :=
  match c.fitness with
  | some f => (f, c)
  | none =>
      let new_fitness := S.ev c.inner
      (new_fitness, { c with fitness := some new_fitness })

/-- Embedding of Cached's mutate: forward to the inner solution, then clear
the cache before returning control. -/
def CachedW.mutate (S : SolOps σ F) (c : CachedW σ F) : CachedW σ F :=
  (CachedW.clear_cache { c with inner := S.mu c.inner }).1

/-- Embedding of Cached's crossover: forward to the inner solutions, then
clear both caches before returning control. -/
def CachedW.crossover (S : SolOps σ F) (a b : CachedW σ F) :
    CachedW σ F × CachedW σ F :=
  let p := S.cx a.inner b.inner
  ((CachedW.clear_cache { a with inner := p.1 }).1,
   (CachedW.clear_cache { b with inner := p.2 }).1)

/-- Calls a client can make through the wrapper API, addressing wrappers in
a pool by index. -/
inductive CacheOp
  | eval (i : ℕ)
  | mutate (i : ℕ)
  | cross (i j : ℕ)

/-- One API call applied to a pool of wrappers (out-of-range indices are
no-ops; the claims only concern calls that reach a wrapper). -/
def stepOp (S : SolOps σ F) (ps : List (CachedW σ F)) : CacheOp → List (CachedW σ F)
  | CacheOp.eval i =>
      match ps[i]? with
      | some c => ps.set i (CachedW.evaluate S c).2
      | none => ps
  | CacheOp.mutate i =>
      match ps[i]? with
      | some c => ps.set i (CachedW.mutate S c)
      | none => ps
  | CacheOp.cross i j =>
      match ps[i]?, ps[j]? with
      | some a, some b =>
          let r := CachedW.crossover S a b
          (ps.set i r.1).set j r.2
      | _, _ => ps

/-- Running a sequence of API calls. -/
def runOps (S : SolOps σ F) (ps : List (CachedW σ F)) (ops : List CacheOp) :
    List (CachedW σ F) :=
  ops.foldl (stepOp S) ps

/-- Cache coherence: every filled slot holds the inner solution's fitness
for the current inner state. -/
def Coherent (S : SolOps σ F) (ps : List (CachedW σ F)) : Prop :=
  ∀ c ∈ ps, ∀ f, c.fitness = some f → f = S.ev c.inner

/-- Postcondition of a single API call: after mutate or crossover the
touched slots are empty; after evaluate the touched slot holds exactly the
inner solution's fitness, and the call returned that same value. -/
def PostOk (S : SolOps σ F) (ps : List (CachedW σ F)) : CacheOp → Prop
  | CacheOp.eval i =>
      (∀ c, (stepOp S ps (CacheOp.eval i))[i]? = some c →
        c.fitness = some (S.ev c.inner)) ∧
      (∀ c, ps[i]? = some c → (CachedW.evaluate S c).1 = S.ev c.inner)
  | CacheOp.mutate i =>
      ∀ c, (stepOp S ps (CacheOp.mutate i))[i]? = some c → c.fitness = none
  | CacheOp.cross i j =>
      ps[i]?.isSome → ps[j]?.isSome →
      ∀ c, ((stepOp S ps (CacheOp.cross i j))[i]? = some c ∨
            (stepOp S ps (CacheOp.cross i j))[j]? = some c) →
        c.fitness = none

lemma coherent_step (S : SolOps σ F) (ps : List (CachedW σ F))
    (h : Coherent S ps) (op : CacheOp) : Coherent S (stepOp S ps op) := by
  have hset : ∀ (qs : List (CachedW σ F)) (k : ℕ) (c : CachedW σ F),
      Coherent S qs → (∀ f, c.fitness = some f → f = S.ev c.inner) →
      Coherent S (qs.set k c) := by
    intro qs k c hq hc x hx f hf
    rcases List.mem_or_eq_of_mem_set hx with hmem | rfl
    · exact hq x hmem f hf
    · exact hc f hf
  cases op with
  | eval i =>
      simp only [stepOp]
      cases hi : ps[i]? with
      | none => exact h
      | some c =>
          apply hset _ _ _ h
          intro f hf
          cases hc : c.fitness with
          | some f0 =>
              simp only [CachedW.evaluate, hc] at hf ⊢
              obtain rfl : f0 = f := by injection hf
              exact h c (List.getElem?_mem hi) _ hc
          | none =>
              simp only [CachedW.evaluate, hc] at hf ⊢
              simpa using hf.symm
  | mutate i =>
      simp only [stepOp]
      cases hi : ps[i]? with
      | none => exact h
      | some c =>
          apply hset _ _ _ h
          intro f hf
          simp [CachedW.mutate, CachedW.clear_cache] at hf
  | cross i j =>
      simp only [stepOp]
      cases hi : ps[i]? with
      | none => exact h
      | some a =>
          cases hj : ps[j]? with
          | none => exact h
          | some b =>
              apply hset
              · apply hset _ _ _ h
                intro f hf
                simp [CachedW.crossover, CachedW.clear_cache] at hf
              · intro f hf
                simp [CachedW.crossover, CachedW.clear_cache] at hf

lemma coherent_runOps (S : SolOps σ F) (ps : List (CachedW σ F))
    (h : Coherent S ps) (ops : List CacheOp) : Coherent S (runOps S ps ops) := by
  induction ops generalizing ps with
  | nil => exact h
  | cons op rest ih => exact ih _ (coherent_step S ps h op)

lemma postOk_step (S : SolOps σ F) (ps : List (CachedW σ F))
    (h : Coherent S ps) (op : CacheOp) : PostOk S ps op := by
  cases op with
  | eval i =>
      constructor
      · intro c hc
        simp only [stepOp] at hc
        cases hi : ps[i]? with
        | none => rw [hi] at hc; rw [hc] at hi; cases hi
        | some c0 =>
            rw [hi] at hc
            have hlen : i < ps.length := by
              have := List.getElem?_eq_some_iff.mp hi
              exact this.1
            rw [List.getElem?_set_self (by simpa using hlen)] at hc
            cases hc
            cases hf : c0.fitness with
            | some f0 =>
                have := h c0 (List.getElem?_mem hi) f0 hf
                simp [CachedW.evaluate, hf, this]
            | none => simp [CachedW.evaluate, hf]
      · intro c hc
        cases hf : c.fitness with
        | some f0 =>
            have := h c (List.getElem?_mem hc) f0 hf
            simp [CachedW.evaluate, hf, this]
        | none => simp [CachedW.evaluate, hf]
  | mutate i =>
      intro c hc
      simp only [stepOp] at hc
      cases hi : ps[i]? with
      | none => rw [hi] at hc; rw [hc] at hi; cases hi
      | some c0 =>
          rw [hi] at hc
          have hlen : i < ps.length := (List.getElem?_eq_some_iff.mp hi).1
          rw [List.getElem?_set_self (by simpa using hlen)] at hc
          cases hc
          simp [CachedW.mutate, CachedW.clear_cache]
  | cross i j =>
      intro hsi hsj c hc
      simp only [stepOp] at hc
      cases hi : ps[i]? with
      | none => rw [hi] at hsi; simp at hsi
      | some a =>
          cases hj : ps[j]? with
          | none => rw [hj] at hsj; simp at hsj
          | some b =>
              rw [hi, hj] at hc
              have hli : i < ps.length := (List.getElem?_eq_some_iff.mp hi).1
              have hlj : j < ps.length := (List.getElem?_eq_some_iff.mp hj).1
              rcases hc with hc | hc
              · by_cases hij : j = i
                · subst hij
                  rw [List.getElem?_set_self (by simpa using hli)] at hc
                  cases hc
                  simp [CachedW.crossover, CachedW.clear_cache]
                · rw [List.getElem?_set_ne hij] at hc
                  rw [List.getElem?_set_self (by simpa using hli)] at hc
                  cases hc
                  simp [CachedW.crossover, CachedW.clear_cache]
              · rw [List.getElem?_set_self (by simpa [List.length_set] using hlj)] at hc
                cases hc
                simp [CachedW.crossover, CachedW.clear_cache]

/-- C4: starting from freshly wrapped solutions, any sequence of API calls
keeps every cache slot coherent (empty or holding the current inner state's
fitness), and each single call satisfies its postcondition: a mutate or
crossover leaves the touched slots empty, an evaluate leaves the touched
slot holding exactly the inner solution's fitness and returns that value. -/
theorem C4_cached_invariant (σ F : Type) (S : SolOps σ F) (init : List σ)
    (ops : List CacheOp) :
    Coherent S (runOps S (init.map CachedW.new) ops) ∧
    ∀ pre op, ops = pre ++ [op] →
      PostOk S (runOps S (init.map CachedW.new) pre) op := by
  have hc0 : Coherent S (init.map CachedW.new) := by
    intro c hc f hf
    simp only [List.mem_map] at hc
    obtain ⟨s, _, rfl⟩ := hc
    simp [CachedW.new] at hf
  refine ⟨coherent_runOps S _ hc0 ops, ?_⟩
  intro pre op _
  exact postOk_step S _ (coherent_runOps S _ hc0 pre) op

/-- Witness for C4 at concrete inputs: a single wrapped integer solution,
mutated once; afterwards the slot is empty. -/
theorem C4_cached_invariant_witness :
    PostOk ⟨fun s => s + 1, fun s => s * 2, fun a b => (a + b, a - b)⟩
      (runOps ⟨fun s => s + 1, fun s => s * 2, fun a b => (a + b, a - b)⟩
        (([5] : List ℤ).map CachedW.new) []) (CacheOp.mutate 0) :=
  (C4_cached_invariant ℤ ℤ ⟨fun s => s + 1, fun s => s * 2, fun a b => (a + b, a - b)⟩
    [5] [CacheOp.mutate 0]).2 [] (CacheOp.mutate 0) rfl

/-! ### gen_or (src/alg.rs lines 348-370)

The reproducible thread RNG is modelled by an oracle: u t is the f64 drawn
by rng.gen() in iteration t (a uniform value in [0,1)), pick t the index
material consumed by SliceRandom::choose, and pickPair t the material
consumed by choose_multiple(rng, 2).  choose on a non-empty slice yields the
element at pick t modulo the length; choose_multiple 2 yields two distinct
indices.  A None result models a panic (the unwrap of choose on an empty
slice, or of the second element of choose_multiple when the population has
fewer than two members). -/

structure RngOracle where
  u : ℕ → ℚ
  pick : ℕ → ℕ
  pickPair : ℕ → ℕ × ℕ

/-- Index pair drawn by choose_multiple(rng, 2) on a slice of length len
(requires 2 ≤ len): two distinct indices below len. -/
def pairIdx (o : RngOracle) (t len : ℕ) : ℕ × ℕ :=
  let a := (o.pickPair t).1 % len
  let braw := (o.pickPair t).2 % (len - 1)
  (a, if a ≤ braw then braw + 1 else braw)

/-- Embedding of gen_or: n_offspring iterations, each drawing a uniform
choice and producing one offspring by crossover (choice < cxpb), mutation
(choice < cxpb + mutpb) or cloning. -/
def genOr (S : SolOps σ F) (o : RngOracle) (pop : List σ)
    (n_offspring : ℕ) (cxpb mutpb : ℚ) : Option (List σ) :=
  (List.range n_offspring).foldl
    (fun acc t =>
      match acc with
      | none => none
      | some offspring =>
          let choice := o.u t
          if choice < cxpb then
            if pop.length < 2 then none
            else
              match pop[(pairIdx o t pop.length).1]?,
                    pop[(pairIdx o t pop.length).2]? with
              | some a, some b => some (offspring ++ [(S.cx a b).1])
              | _, _ => none
          else if choice < cxpb + mutpb then
            match pop[o.pick t % pop.length]? with
            | some chosen => some (offspring ++ [S.mu chosen])
            | none => none
          else
            match pop[o.pick t % pop.length]? with
            | some chosen => some (offspring ++ [chosen])
            | none => none)
    (some [])

lemma pairIdx_lt (o : RngOracle) (t len : ℕ) (h : 2 ≤ len) :
    (pairIdx o t len).1 < len ∧ (pairIdx o t len).2 < len := by
  unfold pairIdx
  have h1 : (o.pickPair t).1 % len < len := Nat.mod_lt _ (by omega)
  have h2 : (o.pickPair t).2 % (len - 1) < len - 1 := Nat.mod_lt _ (by omega)
  constructor
  · exact h1
  · dsimp only
    split <;> omega

/-- C10 counterexample to the claim that gen_or detects cxpb + mutpb > 1 and
panics: with cxpb = mutpb = 3/5 (so cxpb + mutpb = 6/5 > 1), a two-member
population and a uniform draw of 7/10, gen_or runs the mutation branch and
returns an offspring vector. -/
theorem C10_genOr_no_panic_counterexample :
    genOr (σ := ℤ) (F := ℤ)
      ⟨fun s => s + 1, fun s => s * 2, fun a b => (a + b, a - b)⟩
      ⟨fun _ => 7/10, fun _ => 1, fun _ => (0, 0)⟩
      [10, 20] 1 (3/5) (3/5) = some [40] ∧
    (3/5 : ℚ) + 3/5 > 1 := by
  constructor
  · have h1 : ¬ ((7:ℚ)/10 < 3/5) := by norm_num
    have h2 : ((7:ℚ)/10 < 3/5 + 3/5) := by norm_num
    have hr : List.range 1 = [0] := by decide
    simp [genOr, h1, h2, hr]
  · norm_num

/-- C10 amended: gen_or performs no validity check on cxpb + mutpb.  For any
population with at least two members and any uniform draws in [0,1), calling
it with cxpb + mutpb > 1 does not panic: it returns a vector of exactly
n_offspring offspring, and every iteration's draw falls below cxpb + mutpb,
so the clone branch is never selected. -/
theorem C10_genOr_unvalidated (σ F : Type) (S : SolOps σ F) (o : RngOracle)
    (pop : List σ) (n_offspring : ℕ) (cxpb mutpb : ℚ)
    (hgt : 1 < cxpb + mutpb) (hu : ∀ t, 0 ≤ o.u t ∧ o.u t < 1)
    (hlen : 2 ≤ pop.length) :
    ∃ l, genOr S o pop n_offspring cxpb mutpb = some l ∧
      l.length = n_offspring ∧ ∀ t < n_offspring, o.u t < cxpb + mutpb := by
  have step : ∀ (t : ℕ) (offspring : List σ),
      ∃ x, (fun acc t =>
      match acc with
      | none => none
      | some offspring =>
          let choice := o.u t
          if choice < cxpb then
            if pop.length < 2 then none
            else
              match pop[(pairIdx o t pop.length).1]?,
                    pop[(pairIdx o t pop.length).2]? with
              | some a, some b => some (offspring ++ [(S.cx a b).1])
              | _, _ => none
          else if choice < cxpb + mutpb then
            match pop[o.pick t % pop.length]? with
            | some chosen => some (offspring ++ [S.mu chosen])
            | none => none
          else
            match pop[o.pick t % pop.length]? with
            | some chosen => some (offspring ++ [chosen])
            | none => none) (some offspring) t = some (offspring ++ [x]) := by
    intro t offspring
    have hu1 := (hu t).1
    have hu2 := (hu t).2
    have hmid : o.u t < cxpb + mutpb := lt_of_lt_of_le hu2 (le_of_lt hgt)
    by_cases hcx : o.u t < cxpb
    · have h2 : ¬ (pop.length < 2) := by omega
      obtain ⟨ha, hb⟩ := pairIdx_lt o t pop.length hlen
      obtain ⟨a, hA⟩ : ∃ a, pop[(pairIdx o t pop.length).1]? = some a :=
        ⟨pop[(pairIdx o t pop.length).1], List.getElem?_eq_getElem ha⟩
      obtain ⟨b, hB⟩ : ∃ b, pop[(pairIdx o t pop.length).2]? = some b :=
        ⟨pop[(pairIdx o t pop.length).2], List.getElem?_eq_getElem hb⟩
      refine ⟨(S.cx a b).1, ?_⟩
      simp only [hcx, if_true, h2, if_false, hA, hB]
    · have hmod : o.pick t % pop.length < pop.length := Nat.mod_lt _ (by omega)
      obtain ⟨c, hC⟩ : ∃ c, pop[o.pick t % pop.length]? = some c :=
        ⟨pop[o.pick t % pop.length], List.getElem?_eq_getElem hmod⟩
      refine ⟨S.mu c, ?_⟩
      simp only [hcx, if_false, hmid, if_true, hC]
  have main : ∀ n, ∃ l, genOr S o pop n cxpb mutpb = some l ∧ l.length = n := by
    intro n
    induction n with
    | zero => exact ⟨[], rfl, rfl⟩
    | succ m ih =>
        obtain ⟨l, hl, hlen'⟩ := ih
        unfold genOr at hl ⊢
        rw [List.range_succ, List.foldl_append, hl]
        obtain ⟨x, hx⟩ := step m l
        simp only [List.foldl_cons, List.foldl_nil]
        refine ⟨l ++ [x], ?_, by simp [hlen']⟩
        exact hx
  obtain ⟨l, hl, hn⟩ := main n_offspring
  exact ⟨l, hl, hn, fun t _ => lt_of_lt_of_le (hu t).2 (le_of_lt hgt)⟩

/-- Witness for C10 amended at concrete inputs. -/
theorem C10_genOr_unvalidated_witness :
    (1 : ℚ) < 3/5 + 3/5 ∧
    ∃ l, genOr (σ := ℤ) (F := ℤ)
      ⟨fun s => s + 1, fun s => s * 2, fun a b => (a + b, a - b)⟩
      ⟨fun _ => 7/10, fun _ => 1, fun _ => (0, 0)⟩
      [10, 20] 3 (3/5) (3/5) = some l ∧
      l.length = 3 ∧ ∀ t < 3, (7/10 : ℚ) < 3/5 + 3/5 :=
  ⟨by norm_num,
   C10_genOr_unvalidated ℤ ℤ
     ⟨fun s => s + 1, fun s => s * 2, fun a b => (a + b, a - b)⟩
     ⟨fun _ => 7/10, fun _ => 1, fun _ => (0, 0)⟩
     [10, 20] 3 (3/5) (3/5) (by norm_num)
     (fun _ => ⟨by norm_num, by norm_num⟩) (by simp)⟩

/-! ### BestN hall of fame (src/hof.rs lines 63-129)

Entries are represented by their collapsed (Into<f64>) fitness values, the
only data BestN::record observes. -/

/-- Embedding of BestN::find_index: some 0 when the store is empty or the
new fitness beats the head; otherwise a linear scan over consecutive pair
windows looking for a strict gap; none when no window matches. -/
def bestNFindIndex (best : List ℤ) (fit : ℤ) : Option ℕ :=
  if best.isEmpty then some 0
  else if best.getD 0 0 < fit then some 0
  else
    ((List.range (best.length - 1)).find? (fun i =>
      decide (best.getD (i + 1) 0 < fit) && decide (fit < best.getD i 0))).map (· + 1)

/-- Processing of one generation member inside BestN::record: insert at the
found index, else push to the back when there is room. -/
def bestNInsertOne (max : ℕ) (best : List ℤ) (x : ℤ) : List ℤ :=
  match bestNFindIndex best x with
  | some idx => best.insertIdx idx x
  | none => if best.length < max then best ++ [x] else best

/-- Embedding of BestN::record: process every generation member in order,
then truncate the store back to max. -/
def bestNRecord (max : ℕ) (best : List ℤ) (gen : List ℤ) : List ℤ :=
  (gen.foldl (bestNInsertOne max) best).take max

/-- Descending sort of collapsed fitness values, the specification's view of
the BestN store. -/
def sortDesc (l : List ℤ) : List ℤ := l.insertionSort (· ≥ ·)

/-- C6 counterexample: recording the generation [5, 3, 5] (two members with
equal collapsed fitness 5) into a fresh BestN(3) stores [5, 3, 5], which is
not sorted by descending fitness: the second 5 fails both the head test
(5 > 5 is false) and every pair window, so it is pushed to the back. -/
theorem C6_bestN_counterexample :
    bestNRecord 3 [] [5, 3, 5] = [5, 3, 5] ∧
    ¬ List.Sorted (· ≥ ·) ([5, 3, 5] : List ℤ) :=
  ⟨by decide, by decide⟩

lemma insertIdx_eq_take_drop (l : List ℤ) (x : ℤ) :
    ∀ n, n ≤ l.length → l.insertIdx n x = l.take n ++ x :: l.drop n := by
  induction l with
  | nil =>
      intro n hn
      have hn0 : n = 0 := by simpa using hn
      subst hn0
      simp [List.insertIdx_zero]
  | cons a tl ih =>
      intro n hn
      cases n with
      | zero => simp [List.insertIdx_zero]
      | succ m =>
          rw [List.insertIdx_succ_cons, ih m (by simpa using hn)]
          simp

lemma find?_range_eq_some (n m : ℕ) (pred : ℕ → Bool) (hm : m < n)
    (hp : pred m = true) (hmin : ∀ k < m, pred k = false) :
    (List.range n).find? pred = some m := by
  have hsplit : List.range n = List.range m ++ List.range' m (n - m) := by
    rw [List.range_eq_range', List.range_eq_range']
    have h := List.range'_append 0 m (n - m) 1
    simp only [Nat.zero_add, Nat.one_mul] at h
    rw [h]
    congr 1
    omega
  rw [hsplit, List.find?_append]
  have h1 : (List.range m).find? pred = none := by
    rw [List.find?_eq_none]
    intro x hx
    rw [List.mem_range] at hx
    simp [hmin x hx]
  rw [h1]
  have h2 : List.range' m (n - m) = m :: List.range' (m + 1) (n - m - 1) := by
    obtain ⟨k, hk⟩ : ∃ k, n - m = k + 1 := ⟨n - m - 1, by omega⟩
    rw [hk, List.range'_succ]
    simp
  rw [h2, List.find?_cons_of_pos _ hp]
  rfl

lemma sorted_countP_pos (x : ℤ) (l : List ℤ) (hs : List.Sorted (· > ·) l) :
    ∀ i, (hi : i < l.length) →
      (i < l.countP (fun b => decide (x < b)) ↔ x < l[i]) := by
  induction l with
  | nil => intro i hi; simp at hi
  | cons a tl ih =>
      have hs' : List.Sorted (· > ·) tl := hs.of_cons
      have ha : ∀ b ∈ tl, b < a := fun b hb => List.rel_of_sorted_cons hs b hb
      intro i hi
      rw [List.countP_cons]
      by_cases hxa : x < a
      · rw [if_pos (by simpa using hxa)]
        cases i with
        | zero => simp [hxa]
        | succ j =>
            have hj : j < tl.length := by simpa using hi
            have hiff := ih hs' j hj
            simp only [List.getElem_cons_succ]
            rw [← hiff]
            omega
      · have hcnt : tl.countP (fun b => decide (x < b)) = 0 := by
          rw [List.countP_eq_zero]
          intro b hb
          simp only [decide_eq_true_eq]
          have : b < a := ha b hb
          omega
        rw [if_neg (by simpa using hxa), hcnt]
        cases i with
        | zero => simp [hxa]
        | succ j =>
            have hj : j < tl.length := by simpa using hi
            simp only [List.getElem_cons_succ]
            have h1 : tl[j] < a := ha _ (List.getElem_mem hj)
            constructor
            · intro hcon; omega
            · intro hlt; omega

lemma bestNFindIndex_char (best : List ℤ) (x : ℤ)
    (hs : List.Sorted (· > ·) best) (hx : x ∉ best) (hne : best ≠ []) :
    bestNFindIndex best x =
      if best.countP (fun b => decide (x < b)) = best.length then none
      else some (best.countP (fun b => decide (x < b))) := by
  set p := best.countP (fun b => decide (x < b)) with hp
  have hple : p ≤ best.length := List.countP_le_length _
  have hchar := sorted_countP_pos x best hs
  have hlen0 : 0 < best.length := List.length_pos.mpr hne
  have hgd0 : best.getD 0 0 = best[0] := List.getD_eq_getElem best 0 hlen0
  unfold bestNFindIndex
  rw [if_neg (by simpa [List.isEmpty_iff] using hne)]
  by_cases h0 : best.getD 0 0 < x
  · have hp0 : p = 0 := by
      by_contra hne0
      have h1 : 0 < p := Nat.pos_of_ne_zero hne0
      have h2 : x < best[0] := (hchar 0 hlen0).mp h1
      rw [hgd0] at h0
      omega
    rw [if_pos h0, if_neg (by omega)]
    rw [hp0]
  · rw [if_neg h0]
    have hx0 : x < best[0] := by
      rw [hgd0] at h0
      have hne0 : x ≠ best[0] := fun he => hx (he ▸ List.getElem_mem hlen0)
      omega
    have hppos : 0 < p := (hchar 0 hlen0).mpr hx0
    by_cases hpm : p = best.length
    · rw [if_pos hpm]
      have hfn : (List.range (best.length - 1)).find? (fun i =>
          decide (best.getD (i + 1) 0 < x) && decide (x < best.getD i 0)) = none := by
        rw [List.find?_eq_none]
        intro i hi
        rw [List.mem_range] at hi
        have h1 : i + 1 < best.length := by omega
        have h2 : x < best[i + 1] := (hchar (i + 1) h1).mp (by omega)
        rw [List.getD_eq_getElem best 0 h1]
        simp only [Bool.and_eq_true, decide_eq_true_eq, not_and]
        intro hc
        omega
      rw [hfn]
      rfl
    · rw [if_neg hpm]
      have hplt : p < best.length := lt_of_le_of_ne hple hpm
      have hfind : (List.range (best.length - 1)).find? (fun i =>
          decide (best.getD (i + 1) 0 < x) && decide (x < best.getD i 0)) =
          some (p - 1) := by
        apply find?_range_eq_some
        · omega
        · have e1 : p - 1 + 1 = p := by omega
          have h1 : p - 1 + 1 < best.length := by omega
          have h2 : p - 1 < best.length := by omega
          rw [List.getD_eq_getElem best 0 h1, List.getD_eq_getElem best 0 h2]
          have hxp : ¬ x < best[p - 1 + 1] := by
            intro hcon
            have := (hchar (p - 1 + 1) h1).mpr hcon
            omega
          have hxp2 : x < best[p - 1] := (hchar (p - 1) h2).mp (by omega)
          have hnep : best[p - 1 + 1] ≠ x :=
            fun he => hx (he ▸ List.getElem_mem h1)
          simp only [Bool.and_eq_true, decide_eq_true_eq]
          omega
        · intro k hk
          have h1 : k + 1 < best.length := by omega
          have h2 : x < best[k + 1] := (hchar (k + 1) h1).mp (by omega)
          rw [List.getD_eq_getElem best 0 h1]
          simp only [Bool.and_eq_true, decide_eq_true_eq, Bool.and_eq_false_iff,
            decide_eq_false_iff_not]
          left
          omega
      rw [hfind]
      simp only [Option.map_some']
      congr 1
      omega

lemma sortDesc_perm (l : List ℤ) : (sortDesc l).Perm l :=
  List.perm_insertionSort _ l

lemma sortDesc_sorted (l : List ℤ) : List.Sorted (· ≥ ·) (sortDesc l) :=
  List.sorted_insertionSort _ l

lemma sortDesc_sorted_strict (l : List ℤ) (h : l.Nodup) :
    List.Sorted (· > ·) (sortDesc l) := by
  have h1 := sortDesc_sorted l
  have h2 : (sortDesc l).Nodup := ((sortDesc_perm l).nodup_iff).mpr h
  have h3 := List.Pairwise.and h1 h2
  exact h3.imp (fun hab => lt_of_le_of_ne hab.1.le (Ne.symm hab.2))

lemma sorted_desc_unique (l1 l2 : List ℤ) (h : l1.Perm l2)
    (s1 : List.Sorted (· > ·) l1) (s2 : List.Sorted (· > ·) l2) : l1 = l2 :=
  List.eq_of_perm_of_sorted h s1 s2

lemma mem_take_lt (S : List ℤ) (p : ℕ) (hS : List.Sorted (· > ·) S) (x : ℤ)
    (hp : p = S.countP (fun b => decide (x < b))) :
    ∀ a ∈ S.take p, x < a := by
  intro a ha
  rw [List.mem_take_iff_getElem] at ha
  obtain ⟨i, hi, rfl⟩ := ha
  have h1 : i < S.length := lt_of_lt_of_le hi (by omega)
  have h2 : i < p := lt_of_lt_of_le hi (by omega)
  exact (sorted_countP_pos x S hS i h1).mp (hp ▸ h2)

lemma mem_drop_lt (S : List ℤ) (p : ℕ) (hS : List.Sorted (· > ·) S) (x : ℤ)
    (hxS : x ∉ S) (hp : p = S.countP (fun b => decide (x < b))) :
    ∀ b ∈ S.drop p, b < x := by
  intro b hb
  rw [List.mem_iff_getElem] at hb
  obtain ⟨j, hj, rfl⟩ := hb
  rw [List.getElem_drop]
  have hlen : p + j < S.length := by
    have := hj
    rw [List.length_drop] at this
    omega
  have h1 : ¬ (x < S[p + j]) := by
    intro hcon
    have := (sorted_countP_pos x S hS (p + j) hlen).mpr hcon
    omega
  have h2 : S[p + j] ≠ x := fun he => hxS (he ▸ List.getElem_mem hlen)
  omega

lemma sortDesc_insert (seen : List ℤ) (x : ℤ) (hnd : (seen ++ [x]).Nodup) :
    sortDesc (seen ++ [x]) =
      (sortDesc seen).take ((sortDesc seen).countP (fun b => decide (x < b))) ++
        x :: (sortDesc seen).drop ((sortDesc seen).countP (fun b => decide (x < b))) := by
  have hndseen : seen.Nodup := (List.nodup_append.mp hnd).1
  have hxs : x ∉ seen := by
    have := (List.nodup_append.mp hnd).2.2
    intro hmem
    exact this hmem (List.mem_singleton_self x)
  set S := sortDesc seen with hSdef
  set p := S.countP (fun b => decide (x < b)) with hpdef
  have hS : List.Sorted (· > ·) S := sortDesc_sorted_strict seen hndseen
  have hxS : x ∉ S := fun h => hxs ((sortDesc_perm seen).subset h)
  have hperm : (sortDesc (seen ++ [x])).Perm (S.take p ++ x :: S.drop p) := by
    have h1 : (sortDesc (seen ++ [x])).Perm (seen ++ [x]) := sortDesc_perm _
    have h2 : (seen ++ [x]).Perm (x :: seen) := List.perm_append_singleton x seen
    have h3 : (x :: seen).Perm (x :: S) := List.Perm.cons x (sortDesc_perm seen).symm
    have h4 : (x :: S).Perm (S.take p ++ x :: S.drop p) := by
      conv_lhs => rw [← List.take_append_drop p S]
      exact List.perm_middle.symm
    exact ((h1.trans h2).trans h3).trans h4
  refine sorted_desc_unique _ _ hperm (sortDesc_sorted_strict _ hnd) ?_
  rw [List.Sorted, List.pairwise_append]
  refine ⟨List.Pairwise.sublist (List.take_sublist p S) hS, ?_, ?_⟩
  · rw [List.pairwise_cons]
    refine ⟨mem_drop_lt S p hS x hxS hpdef, ?_⟩
    exact List.Pairwise.sublist (List.drop_sublist p S) hS
  · intro a ha b hb
    have hxa : x < a := mem_take_lt S p hS x hpdef a ha
    rcases List.mem_cons.mp hb with rfl | hb2
    · exact hxa
    · have := mem_drop_lt S p hS x hxS hpdef b hb2
      omega

lemma take_min_eq_take (L : List ℤ) (n : ℕ) : L.take (min n L.length) = L.take n := by
  rcases le_total n L.length with h | h
  · rw [min_eq_left h]
  · rw [min_eq_right h, List.take_of_length_le h, List.take_of_length_le (le_refl _)]

lemma bestN_insert_step (max : ℕ) (hmax : 0 < max) (seen best : List ℤ) (x : ℤ)
    (hnd : (seen ++ [x]).Nodup)
    (hinv1 : best = (sortDesc seen).take best.length)
    (hinv2 : min max best.length = min max seen.length) :
    bestNInsertOne max best x =
      (sortDesc (seen ++ [x])).take (bestNInsertOne max best x).length ∧
    min max (bestNInsertOne max best x).length = min max (seen.length + 1) := by
  have hndseen : seen.Nodup := (List.nodup_append.mp hnd).1
  have hxs : x ∉ seen := by
    have := (List.nodup_append.mp hnd).2.2
    intro hmem
    exact this hmem (List.mem_singleton_self x)
  set S := sortDesc seen with hSdef
  set sp := S.countP (fun b => decide (x < b)) with hspdef
  have hS : List.Sorted (· > ·) S := sortDesc_sorted_strict seen hndseen
  have hxS : x ∉ S := fun h => hxs ((sortDesc_perm seen).subset h)
  have hSlen : S.length = seen.length := (sortDesc_perm seen).length_eq
  set m := best.length with hmdef
  have hmS : m ≤ S.length := by
    have := congrArg List.length hinv1
    rw [List.length_take] at this
    omega
  have hins := sortDesc_insert seen x hnd
  rw [← hSdef, ← hspdef] at hins
  have hspS : sp ≤ S.length := List.countP_le_length _
  have hbsort : List.Sorted (· > ·) best := by
    rw [hinv1]
    exact List.Pairwise.sublist (List.take_sublist _ _) hS
  have hxbest : x ∉ best := by
    intro hmem
    rw [hinv1] at hmem
    exact hxS (List.mem_of_mem_take hmem)
  by_cases hbe : best = []
  · subst hbe
    have hm0 : m = 0 := by simp [hmdef]
    have hs0 : seen.length = 0 := by
      rw [hm0] at hinv2
      rw [Nat.min_zero] at hinv2
      rcases Nat.le_total max seen.length with h | h
      · rw [min_eq_left h] at hinv2
        omega
      · rw [min_eq_right h] at hinv2
        omega
    have hseen : seen = [] := List.length_eq_zero.mp hs0
    subst hseen
    have hS0 : S = [] := by
      have : S.length = 0 := by rw [hSlen]; rfl
      exact List.length_eq_zero.mp this
    rw [hS0] at hins
    simp only [List.take_nil, List.drop_nil, List.nil_append] at hins
    have hfi : bestNFindIndex [] x = some 0 := by
      unfold bestNFindIndex
      simp
    unfold bestNInsertOne
    rw [hfi]
    constructor
    · simp [hins, List.insertIdx_zero]
    · simp [List.insertIdx_zero]
  · have hm1 : 0 < m := by
      rw [hmdef]
      exact List.length_pos.mpr hbe
    set p := best.countP (fun b => decide (x < b)) with hpdef
    have hpm : p ≤ m := List.countP_le_length _
    have hbget : ∀ i, (hi : i < m) → best[i] = S[i] := by
      intro i hi
      have h1 := List.getElem_of_eq hinv1 hi
      rw [h1, List.getElem_take]
    have hkey : ∀ i, i < m → (i < p ↔ i < sp) := by
      intro i hi
      have h1 := sorted_countP_pos x best hbsort i hi
      have h2 := sorted_countP_pos x S hS i (lt_of_lt_of_le hi hmS)
      rw [← hpdef] at h1
      rw [← hspdef] at h2
      rw [h1, h2, hbget i hi]
    have hchar := bestNFindIndex_char best x hbsort hxbest hbe
    rw [← hpdef, ← hmdef] at hchar
    by_cases hcase : p = m
    · have hspm : m ≤ sp := by
        by_contra hcon
        push_neg at hcon
        have := (hkey sp (by omega)).mp (by omega)
        omega
      rw [if_pos hcase] at hchar
      unfold bestNInsertOne
      rw [hchar]
      dsimp only
      by_cases hroom : best.length < max
      · rw [if_pos hroom]
        have hsm : seen.length = m := by omega
        have hSm : S.length = m := by omega
        have hspm2 : sp = m := by omega
        have hbS : best = S := by
          rw [hinv1, ← hSm, List.take_length]
        have hSd : S.drop sp = [] := by
          rw [hspm2, ← hSm, List.drop_length]
        have hSt : S.take sp = S := by
          rw [hspm2, ← hSm, List.take_length]
        rw [hSd, hSt] at hins
        constructor
        · rw [hins, hbS]
          have hlen : (S ++ [x]).length = m + 1 := by
            rw [List.length_append, hSm]
            rfl
          rw [List.length_append]
          rw [List.take_of_length_le (by rw [hlen, hSm]; simp)]
        · rw [List.length_append, hsm]
          rfl
      · rw [if_neg hroom]
        push_neg at hroom
        constructor
        · rw [hins]
          have hlt : (S.take sp).length = sp := by
            rw [List.length_take]
            omega
          rw [List.take_append_eq_append_take, hlt]
          have h0 : m - sp = 0 := by omega
          rw [h0, List.take_zero, List.append_nil, List.take_take]
          rw [min_eq_left (by omega : m ≤ sp)]
          exact hinv1
        · have hs1 : max ≤ seen.length := by omega
          rw [min_eq_left (by omega : max ≤ best.length),
            min_eq_left (by omega : max ≤ seen.length + 1)]
    · rw [if_neg hcase] at hchar
      have hplt : p < m := lt_of_le_of_ne hpm hcase
      have hspp : sp = p := by
        have h1 : ¬ (p < sp) := by
          intro hcon
          have := (hkey p hplt).mpr hcon
          omega
        by_cases hp0 : p = 0
        · omega
        · have h2 : p - 1 < sp := (hkey (p - 1) (by omega)).mp (by omega)
          omega
      unfold bestNInsertOne
      rw [hchar]
      dsimp only
      rw [insertIdx_eq_take_drop best x p (by omega)]
      have hlen : (best.take p ++ x :: best.drop p).length = m + 1 := by
        rw [List.length_append, List.length_take, List.length_cons, List.length_drop]
        omega
      constructor
      · rw [hlen, hins, hspp]
        have hltp : (S.take p).length = p := by
          rw [List.length_take]
          omega
        rw [List.take_append_eq_append_take, hltp]
        have h1 : (S.take p).take (m + 1) = S.take p := by
          rw [List.take_take, min_eq_right (by omega)]
        rw [h1]
        have h2 : m + 1 - p = (m - p) + 1 := by omega
        rw [h2, List.take_succ_cons]
        congr 1
        · conv_lhs => rw [hinv1]
          rw [List.take_take, min_eq_left (by omega)]
        · congr 1
          conv_lhs => rw [hinv1]
          rw [List.drop_take]
      · rw [hlen]
        have : m ≤ seen.length := by omega
        omega

lemma bestN_fold_inv (max : ℕ) (hmax : 0 < max) (gen : List ℤ) :
    ∀ (seen best : List ℤ), (seen ++ gen).Nodup →
      best = (sortDesc seen).take best.length →
      min max best.length = min max seen.length →
      (gen.foldl (bestNInsertOne max) best) =
        (sortDesc (seen ++ gen)).take
          (gen.foldl (bestNInsertOne max) best).length ∧
      min max (gen.foldl (bestNInsertOne max) best).length =
        min max (seen ++ gen).length := by
  induction gen with
  | nil =>
      intro seen best hnd h1 h2
      simp only [List.append_nil, List.foldl_nil]
      exact ⟨h1, h2⟩
  | cons x g ih =>
      intro seen best hnd h1 h2
      have hng : ((seen ++ [x]) ++ g).Nodup := by simpa using hnd
      have hnd1 : (seen ++ [x]).Nodup := (List.nodup_append.mp hng).1
      obtain ⟨s1, s2⟩ := bestN_insert_step max hmax seen best x hnd1 h1 h2
      have hres := ih (seen ++ [x]) (bestNInsertOne max best x) hng s1
        (by simpa using s2)
      simpa [List.append_assoc] using hres

lemma bestN_record_inv (max : ℕ) (hmax : 0 < max) (seen best gen : List ℤ)
    (hnd : (seen ++ gen).Nodup)
    (h1 : best = (sortDesc seen).take best.length)
    (h2 : min max best.length = min max seen.length) :
    bestNRecord max best gen = (sortDesc (seen ++ gen)).take max := by
  obtain ⟨f1, f2⟩ := bestN_fold_inv max hmax gen seen best hnd h1 h2
  unfold bestNRecord
  rw [f1, List.take_take, f2, ← (sortDesc_perm (seen ++ gen)).length_eq]
  exact take_min_eq_take _ _

lemma best_eq_take_max (max : ℕ) (seen best : List ℤ)
    (h1 : best = (sortDesc seen).take best.length)
    (h2 : min max best.length = min max seen.length)
    (h3 : best.length ≤ max) :
    best = (sortDesc seen).take max := by
  have hl : (sortDesc seen).length = seen.length := (sortDesc_perm _).length_eq
  rcases Nat.lt_or_ge seen.length max with hs | hs
  · have hm : best.length = seen.length := by omega
    rw [h1, hm, ← hl, List.take_length, List.take_of_length_le (by omega)]
  · have hm : best.length = max := by omega
    rw [h1, hm]

lemma bestN_gens_fold (max : ℕ) (hmax : 0 < max) (gs : List (List ℤ)) :
    ∀ (seen best : List ℤ), (seen ++ gs.flatten).Nodup →
      best = (sortDesc seen).take best.length →
      min max best.length = min max seen.length →
      best.length ≤ max →
      gs.foldl (bestNRecord max) best =
        (sortDesc (seen ++ gs.flatten)).take max := by
  induction gs with
  | nil =>
      intro seen best hnd h1 h2 h3
      simp only [List.flatten_nil, List.append_nil, List.foldl_nil]
      exact best_eq_take_max max seen best h1 h2 h3
  | cons g gs2 ih =>
      intro seen best hnd h1 h2 h3
      rw [List.foldl_cons]
      have hassoc : seen ++ (g :: gs2).flatten = (seen ++ g) ++ gs2.flatten := by
        simp [List.flatten_cons, List.append_assoc]
      rw [hassoc] at hnd ⊢
      have hndg : (seen ++ g).Nodup := (List.nodup_append.mp hnd).1
      have hrec : bestNRecord max best g = (sortDesc (seen ++ g)).take max :=
        bestN_record_inv max hmax seen best g hndg h1 h2
      have hlen : (bestNRecord max best g).length = min max (seen ++ g).length := by
        rw [hrec, List.length_take, (sortDesc_perm _).length_eq]
      have i1 : bestNRecord max best g =
          (sortDesc (seen ++ g)).take (bestNRecord max best g).length := by
        rw [hrec, List.length_take]
        exact (take_min_eq_take _ _).symm
      have i2 : min max (bestNRecord max best g).length =
          min max (seen ++ g).length := by
        rw [hlen]; omega
      have i3 : (bestNRecord max best g).length ≤ max := by rw [hlen]; omega
      exact ih (seen ++ g) _ hnd i1 i2 i3

/-- C6 amended: provided all recorded collapsed fitness values are pairwise
distinct, after every call to BestN(max)::record the stored entries are
exactly the max highest recorded values in descending order (all of them
while fewer than max have been recorded).  Recording the generations gens in
order from a fresh BestN(max) yields the first max entries of the descending
sort of all recorded values. -/
theorem C6_bestN_amended (max : ℕ) (gens : List (List ℤ))
    (hnd : gens.flatten.Nodup) :
    gens.foldl (bestNRecord max) [] = (sortDesc gens.flatten).take max := by
  rcases Nat.eq_zero_or_pos max with hmax | hmax
  · subst hmax
    have hz : ∀ (gs : List (List ℤ)) (b : List ℤ), b = [] →
        gs.foldl (bestNRecord 0) b = [] := by
      intro gs
      induction gs with
      | nil => intro b hb; simpa using hb
      | cons g gs2 ih =>
          intro b hb
          rw [List.foldl_cons]
          exact ih _ (by simp [bestNRecord])
    rw [hz gens [] rfl]
    simp
  · have h := bestN_gens_fold max hmax gens [] []
      (by simpa using hnd) (by simp) (by simp) (by simp)
    simpa using h

/-- Witness for C6 amended at concrete inputs: two generations with distinct
fitness values recorded into a BestN(2). -/
theorem C6_bestN_amended_witness :
    ([[5, 3], [7]] : List (List ℤ)).flatten.Nodup ∧
    ([[5, 3], [7]] : List (List ℤ)).foldl (bestNRecord 2) [] =
      (sortDesc ([[5, 3], [7]] : List (List ℤ)).flatten).take 2 :=
  ⟨by decide, C6_bestN_amended 2 [[5, 3], [7]] (by decide)⟩

/-! ### retain_indices (src/select/utils.rs lines 18-39) -/

/-- Embedding of Vec::swap: exchanges positions a and b, panicking (none)
when either index is out of bounds. -/
def swapL (l : List α) (a b : ℕ) : Option (List α) :=
  match l[a]?, l[b]? with
  | some x, some y => some ((l.set a y).set b x)
  | _, _ => none

/-- Main loop of retain_indices: i walks the (growing) sorted index list; on
a duplicate of the previous index the just-placed element is cloned to the
back of the vector and the clone's position is appended to the index list;
otherwise the indexed element is swapped into the next contiguous slot.  The
fuel only bounds the number of iterations; 2 * |indices| always suffices
(the loop runs |indices| - 1 + #duplicates ≤ 2 |indices| - 2 times). -/
def riLoop (fuel : ℕ) (vec : List α) (indices : List ℕ) (swap_to i : ℕ) :
    Option (List α) :=
  match fuel with
  | 0 => none
  | fuel + 1 =>
      if i < indices.length then
        if indices.getD i 0 = indices.getD (i - 1) 0 then
          match vec[swap_to - 1]? with
          | some cl =>
              riLoop fuel (vec ++ [cl]) (indices ++ [vec.length]) swap_to (i + 1)
          | none => none
        else
          match swapL vec (indices.getD i 0) swap_to with
          | some vec2 => riLoop fuel vec2 indices (swap_to + 1) (i + 1)
          | none => none
      else some vec

/-- Embedding of retain_indices: sort the indices, swap the first pick to
position 0, run the main loop from i = swap_to = 1, truncate to the original
index count.  none models the panics of the source (indices[0] on an empty
index list, or an out-of-range Vec index). -/
def retain_indices (vec : List α) (indices : List ℕ) : Option (List α) :=
  if indices.isEmpty then none
  else
    match swapL vec ((indices.insertionSort (· ≤ ·)).getD 0 0) 0 with
    | some vec1 =>
        (riLoop (2 * indices.length) vec1 (indices.insertionSort (· ≤ ·)) 1 1).map
          (fun v => v.take indices.length)
    | none => none

lemma take_set_of_le (l : List α) (a k : ℕ) (y : α) (h : k ≤ a) :
    (l.set a y).take k = l.take k := by
  apply List.ext_getElem?
  intro n
  rw [List.getElem?_take, List.getElem?_take]
  split
  · next hn =>
      rw [List.getElem?_set]
      rw [if_neg (by omega)]
  · rfl

lemma length_filterMap_of_valid (idx : List ℕ) (vec : List α)
    (h : ∀ e ∈ idx, e < vec.length) :
    (idx.filterMap (fun i => vec[i]?)).length = idx.length := by
  induction idx with
  | nil => rfl
  | cons a tl ih =>
      have ha : a < vec.length := h a (List.mem_cons_self a tl)
      rw [List.filterMap_cons]
      rw [List.getElem?_eq_getElem ha]
      simp only [List.length_cons]
      rw [ih (fun e he => h e (List.mem_cons_of_mem a he))]

lemma swapL_eq (l : List α) (a b : ℕ) (ha : a < l.length) (hb : b < l.length) :
    swapL l a b = some ((l.set a l[b]).set b l[a]) := by
  unfold swapL
  rw [List.getElem?_eq_getElem ha, List.getElem?_eq_getElem hb]

lemma riLoop_phase2 (n n₀ d e : ℕ) (indices : List ℕ) (target : List α)
    (hde : d + e = n₀) (hdn : d ≤ n) (hn₀ : 1 ≤ n₀)
    (hlen : indices.length = n₀ + e)
    (hget : ∀ j, j < e → indices.getD (n₀ + j) 0 = n + j)
    (hprev : indices.getD (n₀ - 1) 0 < n) :
    ∀ (fuel : ℕ) (vec : List α) (t : ℕ),
      t ≤ e → e - t + 1 ≤ fuel →
      vec.length = n + e →
      (vec.take (d + t) ++ vec.drop (n + t)).Perm target →
      ∃ final, riLoop fuel vec indices (d + t) (n₀ + t) = some final ∧
        final.length = n + e ∧ (final.take n₀).Perm target := by
  intro fuel
  induction fuel with
  | zero => intro vec t _ hf; omega
  | succ fuel ih =>
      intro vec t ht hf hvlen hperm
      by_cases hte : t = e
      · unfold riLoop
        rw [if_neg (by omega)]
        refine ⟨vec, rfl, hvlen, ?_⟩
        have hdrop : vec.drop (n + t) = [] := List.drop_eq_nil_of_le (by omega)
        rw [hdrop, List.append_nil] at hperm
        have hdt : d + t = n₀ := by omega
        rw [← hdt]
        exact hperm
      · have hte2 : t < e := by omega
        unfold riLoop
        rw [if_pos (by omega)]
        have hcur : indices.getD (n₀ + t) 0 = n + t := hget t hte2
        have hprv : indices.getD (n₀ + t - 1) 0 ≠ n + t := by
          rcases Nat.eq_zero_or_pos t with ht0 | ht0
          · subst ht0
            simp only [Nat.add_zero]
            omega
          · have he2 : n₀ + t - 1 = n₀ + (t - 1) := by omega
            rw [he2, hget (t - 1) (by omega)]
            omega
        rw [if_neg (by rw [hcur]; exact fun hc => hprv hc.symm)]
        have hb1 : n + t < vec.length := by omega
        have hb2 : d + t < vec.length := by omega
        rw [hcur, swapL_eq vec (n + t) (d + t) hb1 hb2]
        set vec2 := (vec.set (n + t) vec[d + t]).set (d + t) vec[n + t] with hvec2
        have hlen2 : vec2.length = n + e := by
          rw [hvec2]
          simp [hvlen]
        have htake : vec2.take (d + t) = vec.take (d + t) := by
          rw [hvec2, take_set_of_le _ _ _ _ (le_refl (d + t)),
            take_set_of_le _ _ _ _ (by omega)]
        have hat : vec2[d + t]? = some (vec[n + t]) := by
          rw [hvec2]
          rw [List.getElem?_set]
          rw [if_pos rfl, if_pos (by simp [hvlen]; omega)]
        have hdrop : vec2.drop (n + t + 1) = vec.drop (n + t + 1) := by
          rw [hvec2, List.drop_set, List.drop_set]
          rw [if_pos (by omega), if_pos (by omega)]
        have hperm2 : (vec2.take (d + t + 1) ++ vec2.drop (n + t + 1)).Perm target := by
          have e1 : vec2.take (d + t + 1) = vec.take (d + t) ++ [vec[n + t]] := by
            rw [List.take_succ, htake, hat]
            rfl
          have e2 : vec.drop (n + t) = vec[n + t] :: vec.drop (n + t + 1) :=
            List.drop_eq_getElem_cons hb1
          rw [e1, hdrop]
          rw [e2] at hperm
          simpa [List.append_assoc] using hperm
        have := ih vec2 (t + 1) (by omega) (by omega) hlen2
          (by
            have e3 : d + (t + 1) = d + t + 1 := by omega
            have e4 : n + (t + 1) = n + t + 1 := by omega
            rw [e3, e4]
            exact hperm2)
        obtain ⟨final, hfin, hfl, hfp⟩ := this
        refine ⟨final, ?_, hfl, hfp⟩
        have e3 : d + (t + 1) = d + t + 1 := by omega
        have e4 : n₀ + (t + 1) = n₀ + t + 1 := by omega
        rw [e3, e4] at hfin
        exact hfin

lemma getD_append_left (l1 l2 : List ℕ) (j : ℕ) (h : j < l1.length) :
    (l1 ++ l2).getD j 0 = l1.getD j 0 := by
  rw [List.getD_eq_getElem?_getD, List.getD_eq_getElem?_getD,
    List.getElem?_append, if_pos h]

lemma getD_append_right2 (l1 l2 : List ℕ) (j : ℕ) (h : l1.length ≤ j) :
    (l1 ++ l2).getD j 0 = l2.getD (j - l1.length) 0 := by
  rw [List.getD_eq_getElem?_getD, List.getD_eq_getElem?_getD,
    List.getElem?_append_right h]

lemma getD_mem_of_lt (l : List ℕ) (j : ℕ) (h : j < l.length) : l.getD j 0 ∈ l := by
  rw [List.getD_eq_getElem _ _ h]
  exact List.getElem_mem h

lemma pairwise_le_getD (l : List ℕ) (hs : List.Pairwise (· ≤ ·) l) (a b : ℕ)
    (hab : a ≤ b) (hb : b < l.length) : l.getD a 0 ≤ l.getD b 0 := by
  rcases eq_or_lt_of_le hab with rfl | hlt
  · exact le_refl _
  · rw [List.getD_eq_getElem _ _ (lt_trans hlt hb), List.getD_eq_getElem _ _ hb]
    exact List.pairwise_iff_get.mp hs ⟨a, lt_trans hlt hb⟩ ⟨b, hb⟩ hlt

lemma riLoop_phase1 (orig : List α) (sidx0 : List ℕ)
    (hsort : List.Pairwise (· ≤ ·) sidx0)
    (hvalid : ∀ v ∈ sidx0, v < orig.length) :
    ∀ (k fuel : ℕ) (vec : List α) (swap_to i : ℕ),
      k = sidx0.length - i →
      1 ≤ i → i ≤ sidx0.length → swap_to ≤ i → 1 ≤ swap_to →
      (sidx0.length - i) + (sidx0.length - swap_to) + 1 ≤ fuel →
      vec.length = orig.length + (i - swap_to) →
      (vec.take swap_to ++ vec.drop orig.length).Perm
        ((sidx0.take i).filterMap (fun v => orig[v]?)) →
      (∀ u, swap_to ≤ u → u < orig.length →
        (∀ j, j < i → sidx0.getD j 0 ≠ u) → vec[u]? = orig[u]?) →
      vec[swap_to - 1]? = orig[sidx0.getD (i - 1) 0]? →
      swap_to - 1 ≤ sidx0.getD (i - 1) 0 →
      ∃ final,
        riLoop fuel vec
          (sidx0 ++ (List.range (i - swap_to)).map (orig.length + ·))
          swap_to i = some final ∧
        sidx0.length ≤ final.length ∧
        (final.take sidx0.length).Perm (sidx0.filterMap (fun v => orig[v]?)) := by
  intro k
  induction k with
  | zero =>
      intro fuel vec swap_to i hk h1i hin₀ hsi h1s hfuel hvlen hperm hK4 hK5 hK6
      set n := orig.length with hn
      set n₀ := sidx0.length with hn₀def
      have hieq : i = n₀ := by omega
      set e := n₀ - swap_to with hedef
      have hprev_mem : sidx0.getD (i - 1) 0 ∈ sidx0 := getD_mem_of_lt _ _ (by omega)
      have hprevn : sidx0.getD (i - 1) 0 < n := hvalid _ hprev_mem
      have hdn : swap_to ≤ n := by omega
      have hie : i - swap_to = e := by omega
      have hlenind : (sidx0 ++ (List.range e).map (n + ·)).length = n₀ + e := by
        simp
      have hget : ∀ j, j < e →
          (sidx0 ++ (List.range e).map (n + ·)).getD (n₀ + j) 0 = n + j := by
        intro j hj
        rw [getD_append_right2 _ _ _ (by omega)]
        have he2 : n₀ + j - sidx0.length = j := by omega
        rw [he2]
        rw [List.getD_eq_getElem _ _ (by simpa using hj)]
        simp
      have hprevind : (sidx0 ++ (List.range e).map (n + ·)).getD (n₀ - 1) 0 < n := by
        rw [getD_append_left _ _ _ (by omega)]
        have he3 : n₀ - 1 = i - 1 := by omega
        rw [he3]
        exact hprevn
      have hmain := riLoop_phase2 n n₀ swap_to e
        (sidx0 ++ (List.range e).map (n + ·))
        (sidx0.filterMap (fun v => orig[v]?)) (by omega) hdn (by omega)
        hlenind hget hprevind fuel vec 0 (by omega) (by omega)
        (by rw [hvlen, hie])
        (by
          have e1 : swap_to + 0 = swap_to := by omega
          have e2 : n + 0 = n := by omega
          rw [e1, e2]
          have e3 : sidx0.take i = sidx0 := List.take_of_length_le (by omega)
          rw [e3] at hperm
          exact hperm)
      obtain ⟨final, hfin, hflen, hfperm⟩ := hmain
      rw [hie]
      refine ⟨final, ?_, by omega, hfperm⟩
      have e1 : swap_to + 0 = swap_to := by omega
      have e2 : n₀ + 0 = i := by omega
      rw [e1, e2] at hfin
      exact hfin
  | succ k ih =>
      intro fuel vec swap_to i hk h1i hin₀ hsi h1s hfuel hvlen hperm hK4 hK5 hK6
      set n := orig.length with hn
      set n₀ := sidx0.length with hn₀def
      set e := i - swap_to with hedef
      have hilt : i < n₀ := by omega
      obtain ⟨f, rfl⟩ : ∃ f, fuel = f + 1 := ⟨fuel - 1, by omega⟩
      have hnn : ∀ v ∈ sidx0, v < n := hvalid
      have hprev_mem : sidx0.getD (i - 1) 0 ∈ sidx0 := getD_mem_of_lt _ _ (by omega)
      have hprevn : sidx0.getD (i - 1) 0 < n := hnn _ hprev_mem
      have hcur_mem : sidx0.getD i 0 ∈ sidx0 := getD_mem_of_lt _ _ (by omega)
      have hcurn : sidx0.getD i 0 < n := hnn _ hcur_mem
      have hstn : swap_to ≤ n := by omega
      have hgdi : (sidx0 ++ (List.range e).map (n + ·)).getD i 0 = sidx0.getD i 0 :=
        getD_append_left _ _ _ (by omega)
      have hgdi1 : (sidx0 ++ (List.range e).map (n + ·)).getD (i - 1) 0 =
          sidx0.getD (i - 1) 0 := getD_append_left _ _ _ (by omega)
      unfold riLoop
      rw [if_pos (by simp only [List.length_append, List.length_map,
        List.length_range]; omega)]
      rw [hgdi, hgdi1]
      set v1 := sidx0.getD i 0 with hv1
      set v0 := sidx0.getD (i - 1) 0 with hv0
      by_cases heq : v1 = v0
      · rw [if_pos heq]
        have hsome : vec[swap_to - 1]? = some (orig[v0]) := by
          rw [hK5, List.getElem?_eq_getElem hprevn]
        rw [hsome]
        have hpush : (sidx0 ++ (List.range e).map (n + ·)) ++ [vec.length] =
            sidx0 ++ (List.range ((i + 1) - swap_to)).map (n + ·) := by
          have he1 : (i + 1) - swap_to = e + 1 := by omega
          rw [he1, List.append_assoc]
          congr 1
          rw [List.range_succ, List.map_append]
          congr 1
          simp [hvlen]
        rw [hpush]
        have inv3 : ((vec ++ [orig[v0]]).take swap_to ++
            (vec ++ [orig[v0]]).drop n).Perm
            ((sidx0.take (i + 1)).filterMap (fun v => orig[v]?)) := by
          have ht1 : (vec ++ [orig[v0]]).take swap_to = vec.take swap_to :=
            List.take_append_of_le_length (by omega)
          have ht2 : (vec ++ [orig[v0]]).drop n =
              vec.drop n ++ [orig[v0]] :=
            List.drop_append_of_le_length (by omega)
          rw [ht1, ht2]
          have ht3 : sidx0.take (i + 1) = sidx0.take i ++ [v1] := by
            rw [List.take_succ, List.getElem?_eq_getElem (by omega : i < sidx0.length)]
            rw [hv1, List.getD_eq_getElem _ _ (by omega : i < sidx0.length)]
            rfl
          rw [ht3, List.filterMap_append]
          have ht4 : List.filterMap (fun v => orig[v]?) [v1] = [orig[v0]] := by
            have h5 : orig[v1]? = some (orig[v0]) := by
              have h6 : orig[v1]? = orig[v0]? := congrArg (fun z => orig[z]?) heq
              rw [h6, List.getElem?_eq_getElem hprevn]
            simp only [List.filterMap_cons, List.filterMap_nil, h5]
          rw [ht4, ← List.append_assoc]
          exact List.Perm.append hperm (List.Perm.refl _)
        have inv4 : ∀ u, swap_to ≤ u → u < n →
            (∀ j, j < i + 1 → sidx0.getD j 0 ≠ u) →
            (vec ++ [orig[v0]])[u]? = orig[u]? := by
          intro u hu1 hu2 hu3
          rw [List.getElem?_append, if_pos (by omega)]
          exact hK4 u hu1 hu2 (fun j hj => hu3 j (by omega))
        have inv5 : (vec ++ [orig[v0]])[swap_to - 1]? =
            orig[sidx0.getD ((i + 1) - 1) 0]? := by
          rw [List.getElem?_append, if_pos (by omega), hK5]
          have he2 : (i + 1) - 1 = i := by omega
          rw [he2]
          exact congrArg (fun z => orig[z]?) (heq.symm.trans hv1)
        have inv6 : swap_to - 1 ≤ sidx0.getD ((i + 1) - 1) 0 := by
          have he2 : (i + 1) - 1 = i := by omega
          rw [he2, ← hv1]
          omega
        have hres := ih f (vec ++ [orig[v0]]) swap_to (i + 1)
          (by omega) (by omega) (by omega) (by omega) h1s (by omega)
          (by simp only [List.length_append, List.length_cons,
            List.length_nil, hvlen]; omega)
          inv3 inv4 inv5 inv6
        exact hres
      · rw [if_neg heq]
        have hprevle : v0 ≤ v1 :=
          pairwise_le_getD sidx0 hsort (i - 1) i (by omega) (by omega)
        have hprevlt : v0 < v1 := lt_of_le_of_ne hprevle (fun h => heq h.symm)
        have hstu : swap_to ≤ v1 := by omega
        have hexcl : ∀ j, j < i → sidx0.getD j 0 ≠ v1 := by
          intro j hj
          have : sidx0.getD j 0 ≤ v0 := by
            rw [hv0]
            exact pairwise_le_getD sidx0 hsort j (i - 1) (by omega) (by omega)
          omega
        have hb1 : v1 < vec.length := by omega
        have hb2 : swap_to < vec.length := by omega
        rw [swapL_eq vec v1 swap_to hb1 hb2]
        set vec2 := (vec.set v1 vec[swap_to]).set swap_to vec[v1] with hvec2
        have hvecu : vec[v1]? = orig[v1]? := hK4 v1 hstu hcurn hexcl
        have hvecu2 : vec[v1] = orig[v1] := by
          rw [List.getElem?_eq_getElem hb1, List.getElem?_eq_getElem hcurn] at hvecu
          injection hvecu
        have hlen2 : vec2.length = vec.length := by
          rw [hvec2]
          simp
        have hind : sidx0 ++ (List.range e).map (n + ·) =
            sidx0 ++ (List.range ((i + 1) - (swap_to + 1))).map (n + ·) := by
          have h7 : (i + 1) - (swap_to + 1) = e := by omega
          rw [h7]
        rw [hind]
        have htake2 : vec2.take swap_to = vec.take swap_to := by
          rw [hvec2, take_set_of_le _ _ _ _ (le_refl swap_to),
            take_set_of_le _ _ _ _ (by omega)]
        have hat2 : vec2[swap_to]? = some (orig[v1]) := by
          rw [hvec2, List.getElem?_set, if_pos rfl, if_pos (by simp; omega),
            hvecu2]
        have hdrop2 : vec2.drop n = vec.drop n := by
          rw [hvec2, List.drop_set, List.drop_set, if_pos (by omega),
            if_pos (by omega)]
        have inv3 : (vec2.take (swap_to + 1) ++ vec2.drop n).Perm
            ((sidx0.take (i + 1)).filterMap (fun v => orig[v]?)) := by
          have e1 : vec2.take (swap_to + 1) =
              vec.take swap_to ++ [orig[v1]] := by
            rw [List.take_succ, htake2, hat2]
            rfl
          have ht3 : sidx0.take (i + 1) = sidx0.take i ++ [v1] := by
            rw [List.take_succ, List.getElem?_eq_getElem (by omega : i < sidx0.length)]
            rw [hv1, List.getD_eq_getElem _ _ (by omega : i < sidx0.length)]
            rfl
          rw [e1, hdrop2, ht3, List.filterMap_append]
          have ht4 : List.filterMap (fun v => orig[v]?) [v1] = [orig[v1]] := by
            simp only [List.filterMap_cons, List.filterMap_nil]
            rw [List.getElem?_eq_getElem hcurn]
          rw [ht4]
          have hstep1 : (vec.take swap_to ++ [orig[v1]] ++ vec.drop n).Perm
              ((orig[v1]) :: (vec.take swap_to ++ vec.drop n)) := by
            rw [List.append_assoc, List.singleton_append]
            exact List.perm_middle
          refine hstep1.trans ?_
          refine (List.Perm.cons _ hperm).trans ?_
          exact (List.perm_append_singleton _ _).symm
        have inv4 : ∀ u, swap_to + 1 ≤ u → u < n →
            (∀ j, j < i + 1 → sidx0.getD j 0 ≠ u) → vec2[u]? = orig[u]? := by
          intro u hu1 hu2 hu3
          have hune : u ≠ v1 := fun h => hu3 i (by omega) (by rw [← hv1, h])
          rw [hvec2, List.getElem?_set_ne (by omega), List.getElem?_set_ne (by omega)]
          exact hK4 u (by omega) hu2 (fun j hj => hu3 j (by omega))
        have inv5 : vec2[(swap_to + 1) - 1]? = orig[sidx0.getD ((i + 1) - 1) 0]? := by
          have he2 : swap_to + 1 - 1 = swap_to := by omega
          have he3 : (i + 1) - 1 = i := by omega
          rw [he2, he3, hat2, ← hv1, List.getElem?_eq_getElem hcurn]
        have inv6 : swap_to + 1 - 1 ≤ sidx0.getD ((i + 1) - 1) 0 := by
          have he3 : (i + 1) - 1 = i := by omega
          rw [he3, ← hv1]
          omega
        have hres := ih f vec2 (swap_to + 1) (i + 1)
          (by omega) (by omega) (by omega) (by omega) (by omega) (by omega)
          (by rw [hlen2, hvlen]; congr 1; omega)
          inv3 inv4 inv5 inv6
        exact hres

lemma retain_indices_spec (vec : List α) (indices : List ℕ)
    (hne : indices ≠ []) (hvalid : ∀ e ∈ indices, e < vec.length) :
    ∃ out, retain_indices vec indices = some out ∧
      out.length = indices.length ∧
      out.Perm (indices.filterMap (fun i => vec[i]?)) := by
  set n := vec.length with hn
  set sidx := indices.insertionSort (· ≤ ·) with hsidx
  have hperm : sidx.Perm indices := List.perm_insertionSort _ _
  have hsort : List.Pairwise (· ≤ ·) sidx := List.sorted_insertionSort _ _
  have hvalid2 : ∀ v ∈ sidx, v < n := fun v hv => hvalid v (hperm.subset hv)
  have hlen : sidx.length = indices.length := hperm.length_eq
  have hn₀ : 1 ≤ sidx.length := by
    rw [hlen]
    exact List.length_pos.mpr hne
  have hs0mem : sidx.getD 0 0 ∈ sidx := getD_mem_of_lt _ _ (by omega)
  have hs0n : sidx.getD 0 0 < n := hvalid2 _ hs0mem
  have h0n : 0 < n := by omega
  unfold retain_indices
  rw [if_neg (by simpa [List.isEmpty_iff] using hne)]
  rw [← hsidx, swapL_eq vec (sidx.getD 0 0) 0 hs0n h0n]
  set s0 := sidx.getD 0 0 with hs0def
  set vec1 := (vec.set s0 vec[0]).set 0 (vec[s0]) with hvec1
  have hvl1 : vec1.length = n := by
    rw [hvec1]
    simp
  have hv10 : vec1[0]? = some (vec[s0]) := by
    rw [hvec1, List.getElem?_set, if_pos rfl, if_pos (by simp; omega)]
  have hinv3 : (vec1.take 1 ++ vec1.drop n).Perm
      ((sidx.take 1).filterMap (fun v => vec[v]?)) := by
    have e1 : vec1.take 1 = [vec[s0]] := by
      have : (1 : ℕ) = 0 + 1 := rfl
      rw [this, List.take_succ, hv10]
      rfl
    have e2 : vec1.drop n = [] := List.drop_eq_nil_of_le (by omega)
    have e3 : sidx.take 1 = [s0] := by
      have h1 : (1 : ℕ) = 0 + 1 := rfl
      rw [h1, List.take_succ, List.take_zero,
        List.getElem?_eq_getElem (by omega : 0 < sidx.length)]
      rw [hs0def, List.getD_eq_getElem _ _ (by omega : 0 < sidx.length)]
      rfl
    rw [e1, e2, e3]
    simp only [List.filterMap_cons, List.filterMap_nil,
      List.getElem?_eq_getElem hs0n, List.append_nil]
    exact List.Perm.refl _
  have hinv4 : ∀ u, 1 ≤ u → u < n →
      (∀ j, j < 1 → sidx.getD j 0 ≠ u) → vec1[u]? = vec[u]? := by
    intro u hu1 hu2 hu3
    have hu0 : s0 ≠ u := hu3 0 (by omega)
    rw [hvec1, List.getElem?_set_ne (by omega), List.getElem?_set_ne hu0]
  have hinv5 : vec1[1 - 1]? = vec[sidx.getD (1 - 1) 0]? := by
    have e4 : (1 : ℕ) - 1 = 0 := rfl
    rw [e4, hv10, ← hs0def, List.getElem?_eq_getElem hs0n]
  have hinv6 : 1 - 1 ≤ sidx.getD (1 - 1) 0 := by omega
  have hres := riLoop_phase1 vec sidx hsort hvalid2 (sidx.length - 1)
    (2 * indices.length) vec1 1 1 rfl (le_refl 1) hn₀ (le_refl 1) (le_refl 1)
    (by omega) (by rw [hvl1]; omega) hinv3 hinv4 hinv5 hinv6
  obtain ⟨final, hfin, hflen, hfperm⟩ := hres
  have hemp : (List.range (1 - 1)).map (n + ·) = [] := rfl
  rw [hemp, List.append_nil] at hfin
  dsimp only
  rw [hfin]
  refine ⟨final.take indices.length, rfl, ?_, ?_⟩
  · rw [List.length_take]
    omega
  · rw [← hlen]
    exact hfperm.trans (hperm.filterMap _)

/-- C3: for every vector v and every non-empty index list whose entries are
all valid positions of v (duplicates and arbitrary order allowed),
retain_indices succeeds and leaves v with exactly |idx| elements, equal as a
multiset to the elements of v selected by idx (with multiplicity). -/
theorem C3_retain_indices (α : Type) (v : List α) (idx : List ℕ)
    (hne : idx ≠ []) (hvalid : ∀ e ∈ idx, e < v.length) :
    ∃ v2, retain_indices v idx = some v2 ∧ v2.length = idx.length ∧
      v2.Perm (idx.filterMap (fun i => v[i]?)) :=
  retain_indices_spec v idx hne hvalid

/-- Witness for C3 at the concrete input of the repository's own test:
v = [a..g] (coded as integers) and idx = [5, 4, 5, 1]. -/
theorem C3_retain_indices_witness :
    ([5, 4, 5, 1] : List ℕ) ≠ [] ∧
    (∀ e ∈ ([5, 4, 5, 1] : List ℕ), e < ([10, 20, 30, 40, 50, 60, 70] : List ℤ).length) ∧
    ∃ v2, retain_indices ([10, 20, 30, 40, 50, 60, 70] : List ℤ) [5, 4, 5, 1] = some v2 ∧
      v2.length = ([5, 4, 5, 1] : List ℕ).length ∧
      v2.Perm (([5, 4, 5, 1] : List ℕ).filterMap
        (fun i => ([10, 20, 30, 40, 50, 60, 70] : List ℤ)[i]?)) :=
  ⟨by decide, by decide,
   C3_retain_indices ℤ [10, 20, 30, 40, 50, 60, 70] [5, 4, 5, 1]
     (by decide) (by decide)⟩

/-! ### Best Order Sort non-dominated ranking (src/select/nsga.rs lines
64-175) -/

/-- Embedding of the ParetoFronts struct: each member's non-dominated rank
and the size of each rank in order. -/
structure ParetoFronts where
  ranks : List ℕ
  counts : List ℕ
deriving DecidableEq

/-- Embedding of ParetoFronts::add_ranking: record idx's rank, incrementing
the rank's count, resizing the counts vector when the rank is new. -/
def ParetoFronts.add_ranking (p : ParetoFronts) (idx rank : ℕ) : ParetoFronts :=
  if rank < p.counts.length then
    { ranks := p.ranks.set idx rank,
      counts := p.counts.set rank (p.counts.getD rank 0 + 1) }
  else
    { ranks := p.ranks.set idx rank,
      counts := (p.counts ++ List.replicate (rank + 1 - p.counts.length) 0).set rank 1 }

/-- State of the Best Order Sort main loop. -/
structure BosState where
  l : List (List (List ℕ))
  c : List (List ℕ)
  is_ranked : List Bool
  solutions_completed : ℕ
  rank_count : ℕ
  pareto : ParetoFronts

/-- Algorithm 1 of Best Order Sort: the initial state. -/
def bosInit (M popsize : ℕ) : BosState :=
  { l := List.replicate popsize (List.replicate M [])
    c := List.replicate popsize (List.range M)
    is_ranked := List.replicate popsize false
    solutions_completed := 0
    rank_count := 1
    pareto := { ranks := List.replicate popsize 0, counts := [] } }

/-- Per-objective orderings q[j]: the population indices sorted by
descending objective j (total_cmp of pop[b][j] against pop[a][j]); an
unstable sort in the source, modelled by insertion sort. -/
def bosQ (M : ℕ) (pop : List (List ℤ)) : List (List ℕ) :=
  (List.range M).map (fun j =>
    (List.range pop.length).insertionSort
      (fun a b => fitAt (pop.getD b []) j ≤ fitAt (pop.getD a []) j))

/-- Appending solution s to the bucket l[k][j]. -/
def pushL (l : List (List (List ℕ))) (k j s : ℕ) : List (List (List ℕ)) :=
  l.set k ((l.getD k []).set j (((l.getD k []).getD j []) ++ [s]))

/-- The domination check of FindRank: whether some member of l[k][j]
dominates s. -/
def anyDomB (M : ℕ) (pop : List (List ℤ)) (l : List (List (List ℕ)))
    (k j s : ℕ) : Bool :=
  ((l.getD k []).getD j []).any (fun t =>
    decide (cmp_dom_f64_slices M (pop.getD s []) (pop.getD t []) =
      DomOrdering.BOverA))

/-- Processing of the cell (i, j) of the main loop: s = q[j][i]; drop j from
c[s]; if s is ranked, append it to its rank's bucket, else run FindRank
(first rank whose bucket holds no dominator of s, opening a new rank when
every existing one does). -/
def bosCell (M : ℕ) (pop : List (List ℤ)) (q : List (List ℕ)) (i j : ℕ)
    (st : BosState) : BosState :=
  let s := (q.getD j []).getD i 0
  let c2 := st.c.set s ((st.c.getD s []).filter (fun k => k ≠ j))
  if st.is_ranked.getD s false then
    { st with c := c2, l := pushL st.l (st.pareto.ranks.getD s 0) j s }
  else
    match (List.range st.rank_count).find? (fun k => ! anyDomB M pop st.l k j s) with
    | some k =>
        { st with
          c := c2
          l := pushL st.l k j s
          pareto := st.pareto.add_ranking s k
          is_ranked := st.is_ranked.set s true
          solutions_completed := st.solutions_completed + 1 }
    | none =>
        { st with
          c := c2
          l := pushL st.l st.rank_count j s
          pareto := st.pareto.add_ranking s st.rank_count
          rank_count := st.rank_count + 1
          is_ranked := st.is_ranked.set s true
          solutions_completed := st.solutions_completed + 1 }

/-- One row of the main loop: the cells (i, 0), ..., (i, M-1). -/
def bosRow (M : ℕ) (pop : List (List ℤ)) (q : List (List ℕ)) (i : ℕ)
    (st : BosState) : BosState :=
  (List.range M).foldl (fun st j => bosCell M pop q i j st) st

/-- Algorithm 2, the main loop, with the early exit once every solution is
ranked (skipping a row when the count is already complete is observably the
same as the source's break after the completing row). -/
def bosMain (M : ℕ) (pop : List (List ℤ)) (q : List (List ℕ))
    (popsize : ℕ) : BosState :=
  (List.range popsize).foldl
    (fun st i =>
      if st.solutions_completed = popsize then st else bosRow M pop q i st)
    (bosInit M popsize)

/-- Embedding of rank_nondominated. -/
def rank_nondominated (M : ℕ) (pop : List (List ℤ)) : ParetoFronts :=
  (bosMain M pop (bosQ M pop) pop.length).pareto

/-- C1 counterexample: in the population [[0,1], [0,2]] the second member
dominates the first under the specification's definition (no worse in every
objective, strictly better in objective 1), yet the comparator reports
Neither for the tied objective 0, so rank_nondominated assigns rank 0 to
both members.  The repository's own end-to-end test (ranks [1,0,1,1,0,0] on
the six bi-objective points) is reproduced as a sanity check. -/
theorem C1_rank0_counterexample :
    SpecDom 2 [0, 2] [0, 1] ∧
    (rank_nondominated 2 [[0, 1], [0, 2]]).ranks = [0, 0] ∧
    (rank_nondominated 2
      [[60, 60], [0, 100], [75, 25], [25, 75], [100, 0], [90, 90]]).ranks =
      [1, 0, 1, 1, 0, 0] := by
  refine ⟨by decide, by decide, by decide⟩

/-- Index-level dominance: member w's objective vector strictly beats member
v's in every objective (the relation the source comparator decides). -/
def Dominates (M : ℕ) (pop : List (List ℤ)) (w v : ℕ) : Prop :=
  StrictDom M (pop.getD w []) (pop.getD v [])

/-- Member v has no dominator in the population. -/
def NonDominated (M : ℕ) (pop : List (List ℤ)) (v : ℕ) : Prop :=
  ∀ w < pop.length, ¬ Dominates M pop w v

lemma find?_range_some_inv (n k : ℕ) (pred : ℕ → Bool)
    (h : (List.range n).find? pred = some k) :
    k < n ∧ pred k = true ∧ ∀ j < k, pred j = false := by
  induction n with
  | zero => simp at h
  | succ m ih =>
      rw [List.range_succ, List.find?_append] at h
      cases hm : (List.range m).find? pred with
      | some k2 =>
          rw [hm] at h
          simp only [Option.or_some] at h
          injection h with h
          subst h
          obtain ⟨h1, h2, h3⟩ := ih hm
          exact ⟨by omega, h2, h3⟩
      | none =>
          rw [hm] at h
          simp only [Option.none_or] at h
          have hall := List.find?_eq_none.mp hm
          cases hp : pred m with
          | true =>
              rw [List.find?_cons_of_pos _ hp] at h
              injection h with h
              subst h
              refine ⟨by omega, hp, ?_⟩
              intro j hj
              have := hall j (by rw [List.mem_range]; omega)
              simpa using this
          | false =>
              rw [List.find?_cons_of_neg _ (by simp [hp])] at h
              simp at h

lemma countP_range_update (P s : ℕ) (hs : s < P) (p p' : ℕ → Bool)
    (hagree : ∀ v, v ≠ s → p v = p' v) (hps : p s = false) :
    List.countP p' (List.range P) =
      List.countP p (List.range P) + (if p' s then 1 else 0) := by
  have hsplit : List.range P = List.range s ++ List.range' s (P - s) := by
    rw [List.range_eq_range', List.range_eq_range']
    have h := List.range'_append 0 s (P - s) 1
    simp only [Nat.zero_add, Nat.one_mul] at h
    rw [h]
    congr 1
    omega
  have hsplit2 : List.range' s (P - s) = s :: List.range' (s + 1) (P - s - 1) := by
    obtain ⟨k, hk⟩ : ∃ k, P - s = k + 1 := ⟨P - s - 1, by omega⟩
    rw [hk, List.range'_succ]
    simp
  rw [hsplit, hsplit2, List.countP_append, List.countP_append,
    List.countP_cons, List.countP_cons]
  have e1 : List.countP p' (List.range s) = List.countP p (List.range s) := by
    apply List.countP_congr
    intro x hx
    rw [List.mem_range] at hx
    rw [hagree x (by omega)]
  have e2 : List.countP p' (List.range' (s + 1) (P - s - 1)) =
      List.countP p (List.range' (s + 1) (P - s - 1)) := by
    apply List.countP_congr
    intro x hx
    have := List.mem_range'_1.mp hx
    rw [hagree x (by omega)]
  rw [e1, e2, hps]
  simp only [if_neg (by simp : ¬ (false = true))]
  cases hp' : p' s <;> simp <;> omega

lemma exists_maximal_dominator (M : ℕ) (pop : List (List ℤ)) (hM : 0 < M)
    (s : ℕ) (hdom : ∃ w < pop.length, Dominates M pop w s) :
    ∃ d < pop.length, Dominates M pop d s ∧ NonDominated M pop d := by
  classical
  set D : Finset ℕ := (Finset.range pop.length).filter
    (fun w => Dominates M pop w s) with hD
  have hne : D.Nonempty := by
    obtain ⟨w, hw1, hw2⟩ := hdom
    exact ⟨w, by simp [hD, Finset.mem_filter, Finset.mem_range, hw1, hw2]⟩
  obtain ⟨d, hdmem, hdmax⟩ :=
    Finset.exists_max_image D (fun w => fitAt (pop.getD w []) 0) hne
  rw [hD, Finset.mem_filter, Finset.mem_range] at hdmem
  refine ⟨d, hdmem.1, hdmem.2, ?_⟩
  intro e he hconte
  have hes : Dominates M pop e s := by
    intro j hj
    exact lt_trans (hdmem.2 j hj) (hconte j hj)
  have hemem : e ∈ D := by
    rw [hD, Finset.mem_filter, Finset.mem_range]
    exact ⟨he, hes⟩
  have h0 : fitAt (pop.getD e []) 0 ≤ fitAt (pop.getD d []) 0 := hdmax e hemem
  have h1 : fitAt (pop.getD d []) 0 < fitAt (pop.getD e []) 0 := hconte 0 hM
  omega

/-! q facts: each column of bosQ is a permutation of the index range,
sorted by descending objective value. -/

lemma bosQ_len (M : ℕ) (pop : List (List ℤ)) (j : ℕ) (hj : j < M) :
    ((bosQ M pop).getD j []).length = pop.length := by
  unfold bosQ
  rw [List.getD_eq_getElem _ _ (by simpa using hj)]
  rw [List.getElem_map]
  simp only [List.getElem_range]
  rw [(List.perm_insertionSort _ _).length_eq, List.length_range]

lemma bosQ_perm (M : ℕ) (pop : List (List ℤ)) (j : ℕ) (hj : j < M) :
    ((bosQ M pop).getD j []).Perm (List.range pop.length) := by
  unfold bosQ
  rw [List.getD_eq_getElem _ _ (by simpa using hj)]
  rw [List.getElem_map]
  simp only [List.getElem_range]
  exact List.perm_insertionSort _ _

lemma bosQ_sorted (M : ℕ) (pop : List (List ℤ)) (j : ℕ) (hj : j < M) :
    List.Pairwise
      (fun a b => fitAt (pop.getD b []) j ≤ fitAt (pop.getD a []) j)
      ((bosQ M pop).getD j []) := by
  unfold bosQ
  rw [List.getD_eq_getElem _ _ (by simpa using hj)]
  rw [List.getElem_map]
  simp only [List.getElem_range]
  have h := @List.sorted_insertionSort ℕ
    (fun a b => fitAt (pop.getD b []) j ≤ fitAt (pop.getD a []) j)
    (fun a b => by infer_instance)
    ⟨fun a b => le_total _ _⟩
    ⟨fun a b c hab hbc => le_trans hbc hab⟩
    (List.range pop.length)
  exact h

lemma bosQ_entry_lt (M : ℕ) (pop : List (List ℤ)) (j : ℕ) (hj : j < M)
    (r : ℕ) (hr : r < pop.length) :
    ((bosQ M pop).getD j []).getD r 0 < pop.length := by
  have hmem : ((bosQ M pop).getD j []).getD r 0 ∈ (bosQ M pop).getD j [] :=
    getD_mem_of_lt _ _ (by rw [bosQ_len M pop j hj]; omega)
  have := (bosQ_perm M pop j hj).subset hmem
  simpa using this

lemma bosQ_dominator_earlier (M : ℕ) (pop : List (List ℤ)) (j : ℕ) (hj : j < M)
    (i : ℕ) (hi : i < pop.length) (d : ℕ) (hd : d < pop.length)
    (hfit : fitAt (pop.getD ((bosQ M pop).getD j [] |>.getD i 0) []) j <
      fitAt (pop.getD d []) j) :
    ∃ r < i, ((bosQ M pop).getD j []).getD r 0 = d := by
  set Q := (bosQ M pop).getD j [] with hQ
  have hlen : Q.length = pop.length := bosQ_len M pop j hj
  have hmem : d ∈ Q := (bosQ_perm M pop j hj).mem_iff.mpr (by simpa using hd)
  obtain ⟨r, hr, hrd⟩ := List.mem_iff_getElem.mp hmem
  have hgd : Q.getD r 0 = d := by
    rw [List.getD_eq_getElem _ _ hr, hrd]
  refine ⟨r, ?_, hgd⟩
  by_contra hcon
  push_neg at hcon
  have hsorted := bosQ_sorted M pop j hj
  rw [← hQ] at hsorted
  rcases lt_or_eq_of_le hcon with hlt | heq2
  · have := List.pairwise_iff_get.mp hsorted ⟨i, by omega⟩ ⟨r, hr⟩ hlt
    simp only [List.get_eq_getElem] at this
    rw [hrd] at this
    rw [List.getD_eq_getElem _ _ (by omega : i < Q.length)] at hfit
    omega
  · rw [List.getD_eq_getElem _ _ (by omega : i < Q.length)] at hfit
    have hiQ : i < Q.length := by omega
    have : Q[i] = d := by
      have : i = r := heq2
      subst this
      exact hrd
    rw [this] at hfit
    omega

/-! Generic getD bookkeeping for the Best Order Sort invariant. -/

lemma getD_set_eq {α : Type} (l : List α) (n : ℕ) (a d : α) (h : n < l.length) :
    (l.set n a).getD n d = a := by
  rw [List.getD_eq_getElem?_getD, List.getElem?_set_self (by omega)]
  rfl

lemma getD_set_ne {α : Type} (l : List α) (n m : ℕ) (a d : α) (h : n ≠ m) :
    (l.set n a).getD m d = l.getD m d := by
  rw [List.getD_eq_getElem?_getD, List.getElem?_set_ne h, ← List.getD_eq_getElem?_getD]

lemma replicate_getD {α : Type} (n : ℕ) (a : α) (i : ℕ) :
    (List.replicate n a).getD i a = a := by
  by_cases h : i < n
  · rw [List.getD_eq_getElem _ _ (by simpa using h), List.getElem_replicate]
  · rw [List.getD_eq_default _ _ (by simpa using h)]

lemma getD_append_left2 {α : Type} (l1 l2 : List α) (j : ℕ) (d : α)
    (h : j < l1.length) : (l1 ++ l2).getD j d = l1.getD j d := by
  rw [List.getD_eq_getElem?_getD, List.getD_eq_getElem?_getD,
    List.getElem?_append, if_pos h]

/-- The member at row r of the objective-j ordering. -/
def qv (M : ℕ) (pop : List (List ℤ)) (j r : ℕ) : ℕ :=
  ((bosQ M pop).getD j []).getD r 0

lemma qv_lt (M : ℕ) (pop : List (List ℤ)) (j : ℕ) (hj : j < M)
    (r : ℕ) (hr : r < pop.length) : qv M pop j r < pop.length :=
  bosQ_entry_lt M pop j hj r hr

/-- Cell (r, j) of the main loop grid has been processed when the loop
stands at row i, column jc. -/
def Proc (M P i jc r j : ℕ) : Prop :=
  j < M ∧ r < P ∧ (r < i ∨ (r = i ∧ j < jc))

instance (M P i jc r j : ℕ) : Decidable (Proc M P i jc r j) := by
  unfold Proc
  infer_instance

lemma Proc_mono (M P i jc r j : ℕ) (h : Proc M P i jc r j) :
    Proc M P i (jc + 1) r j := by
  unfold Proc at h ⊢
  omega

lemma Proc_succ (M P i jc r j : ℕ) :
    Proc M P i (jc + 1) r j ↔
      Proc M P i jc r j ∨ (r = i ∧ j = jc ∧ j < M ∧ r < P) := by
  unfold Proc
  omega

lemma Proc_row_end (M P i r j : ℕ) :
    Proc M P i M r j ↔ Proc M P (i + 1) 0 r j := by
  unfold Proc
  omega

lemma Proc_new_cell (M P i jc : ℕ) (hjc : jc < M) (hi : i < P) :
    Proc M P i (jc + 1) i jc := by
  unfold Proc
  omega

/-- If every rank below rank_count is inhabited by a ranked member then
there are at least rank_count ranked members. -/
lemma rank_count_le (P RC : ℕ) (pred : ℕ → Bool) (rk : ℕ → ℕ)
    (hne : ∀ r < RC, ∃ v, v < P ∧ pred v = true ∧ rk v = r) :
    RC ≤ List.countP pred (List.range P) := by
  classical
  set T : Finset ℕ := ((List.range P).filter pred).toFinset with hT
  have hcard : T.card = List.countP pred (List.range P) := by
    rw [hT, List.toFinset_card_of_nodup (List.Nodup.filter _ (List.nodup_range _))]
    rw [List.countP_eq_length_filter]
  have hch : ∀ r, r < RC → ∃ v, v < P ∧ pred v = true ∧ rk v = r := hne
  set f : ℕ → ℕ := fun r => if h : r < RC then (hch r h).choose else 0 with hf
  have hfspec : ∀ r < RC, f r < P ∧ pred (f r) = true ∧ rk (f r) = r := by
    intro r hr
    rw [hf]
    simp only [dif_pos hr]
    exact (hch r hr).choose_spec
  have hmaps : ∀ r ∈ Finset.range RC, f r ∈ T := by
    intro r hr
    rw [Finset.mem_range] at hr
    obtain ⟨h1, h2, _⟩ := hfspec r hr
    rw [hT, List.mem_toFinset, List.mem_filter]
    exact ⟨by rw [List.mem_range]; omega, h2⟩
  have hinj : Set.InjOn f (Finset.range RC) := by
    intro r1 h1 r2 h2 heq
    rw [Finset.coe_range, Set.mem_Iio] at h1 h2
    have e1 := (hfspec r1 h1).2.2
    have e2 := (hfspec r2 h2).2.2
    rw [heq] at e1
    rw [e1] at e2
    exact e2
  have := Finset.card_le_card_of_injOn f hmaps hinj
  rw [Finset.card_range, hcard] at this
  exact this

/-- The effect of pushL on an arbitrary bucket. -/
lemma pushL_bucket (l : List (List (List ℕ))) (k j s k' j' : ℕ)
    (hk : k < l.length) (hj : j < (l.getD k []).length) :
    ((pushL l k j s).getD k' []).getD j' [] =
      if k' = k ∧ j' = j then ((l.getD k []).getD j []) ++ [s]
      else (l.getD k' []).getD j' [] := by
  unfold pushL
  by_cases hkk : k' = k
  · subst hkk
    rw [getD_set_eq _ _ _ _ hk]
    by_cases hjj : j' = j
    · subst hjj
      rw [getD_set_eq _ _ _ _ hj, if_pos ⟨rfl, rfl⟩]
    · rw [getD_set_ne _ _ _ _ _ (fun h => hjj h.symm),
        if_neg (fun h => hjj h.2)]
  · rw [getD_set_ne _ _ _ _ _ (fun h => hkk h.symm),
      if_neg (fun h => hkk h.1)]

/-- pushL preserves the length of every row of buckets. -/
lemma pushL_getD_len (l : List (List (List ℕ))) (k j s k' : ℕ)
    (hk : k < l.length) :
    ((pushL l k j s).getD k' []).length = (l.getD k' []).length := by
  unfold pushL
  by_cases hkk : k' = k
  · subst hkk
    rw [getD_set_eq _ _ _ _ hk, List.length_set]
  · rw [getD_set_ne _ _ _ _ _ (fun h => hkk h.symm)]

/-- pushL preserves the outer length. -/
lemma pushL_length (l : List (List (List ℕ))) (k j s : ℕ) :
    (pushL l k j s).length = l.length := by
  unfold pushL
  rw [List.length_set]

/-- All buckets start empty. -/
lemma bosInit_bucket (M P k j : ℕ) :
    (((bosInit M P).l.getD k []).getD j []) = [] := by
  unfold bosInit
  simp only
  by_cases hk : k < P
  · have h1 : (List.replicate P (List.replicate M ([] : List ℕ))).getD k [] =
        List.replicate M [] := by
      rw [List.getD_eq_getElem _ _ (by simpa using hk), List.getElem_replicate]
    rw [h1]
    exact replicate_getD M [] j
  · have h1 : (List.replicate P (List.replicate M ([] : List ℕ))).getD k [] = [] := by
      rw [List.getD_eq_default _ _ (by simpa using hk)]
    rw [h1]
    simp

/-- The loop invariant of the Best Order Sort main loop, at row i, column
jc: lengths are stable, rankedness is exactly having appeared in a
processed cell, every processed appearance is recorded in the bucket of
the member's rank, bucket members are ranked with the bucket's rank, a
ranked member has rank 0 exactly when nothing strictly dominates it, ranks
are below rank_count, solutions_completed counts the ranked members, the
counts vector counts each rank's members, and every open rank is
inhabited (except rank 0 before the first ranking). -/
structure BosInv (M : ℕ) (pop : List (List ℤ)) (i jc : ℕ) (st : BosState) :
    Prop where
  hranks_len : st.pareto.ranks.length = pop.length
  hranked_len : st.is_ranked.length = pop.length
  hrc1 : 1 ≤ st.rank_count
  hl_len : st.l.length = pop.length
  hl_inner : ∀ k, k < pop.length → (st.l.getD k []).length = M
  hranked_iff : ∀ v, st.is_ranked.getD v false = true ↔
    ∃ r j, Proc M pop.length i jc r j ∧ qv M pop j r = v
  hmemL : ∀ r j, Proc M pop.length i jc r j →
    qv M pop j r ∈
      (st.l.getD (st.pareto.ranks.getD (qv M pop j r) 0) []).getD j []
  hLsound : ∀ k j v, v ∈ (st.l.getD k []).getD j [] →
    v < pop.length ∧ st.is_ranked.getD v false = true ∧
      st.pareto.ranks.getD v 0 = k
  hcore : ∀ v, st.is_ranked.getD v false = true →
    (st.pareto.ranks.getD v 0 = 0 ↔ NonDominated M pop v)
  hrk_lt : ∀ v, st.is_ranked.getD v false = true →
    st.pareto.ranks.getD v 0 < st.rank_count
  hcompleted : st.solutions_completed =
    List.countP (fun v => st.is_ranked.getD v false) (List.range pop.length)
  hcounts_len : st.pareto.counts.length = st.rank_count ∨
    (st.pareto.counts = [] ∧ st.solutions_completed = 0)
  hcounts : ∀ r, st.pareto.counts.getD r 0 =
    List.countP
      (fun v => st.is_ranked.getD v false && (st.pareto.ranks.getD v 0 == r))
      (List.range pop.length)
  hrank_nonempty : ∀ r, r < st.rank_count →
    (∃ v, v < pop.length ∧ st.is_ranked.getD v false = true ∧
      st.pareto.ranks.getD v 0 = r) ∨
    (st.solutions_completed = 0 ∧ r = 0)

/-- What holds of the state once every member is ranked. -/
structure BosFinal (M : ℕ) (pop : List (List ℤ)) (st : BosState) : Prop where
  hranks_len : st.pareto.ranks.length = pop.length
  hcompleted : st.solutions_completed = pop.length
  hcore : ∀ v, v < pop.length →
    (st.pareto.ranks.getD v 0 = 0 ↔ NonDominated M pop v)
  hrk_lt : ∀ v, v < pop.length → st.pareto.ranks.getD v 0 < st.rank_count
  hcounts_len : st.pareto.counts.length = st.rank_count
  hcounts : ∀ r, st.pareto.counts.getD r 0 =
    List.countP (fun v => st.pareto.ranks.getD v 0 == r)
      (List.range pop.length)
  hrank_nonempty : ∀ r, r < st.rank_count →
    ∃ v, v < pop.length ∧ st.pareto.ranks.getD v 0 = r
  hrc1 : 1 ≤ st.rank_count

/-- Nothing is ranked in the initial state. -/
lemma bosInit_not_ranked (M P v : ℕ) :
    (bosInit M P).is_ranked.getD v false = false := by
  unfold bosInit
  simp only
  exact replicate_getD P false v

/-- The initial state satisfies the invariant at position (0, 0). -/
lemma bosInit_inv (M : ℕ) (pop : List (List ℤ)) :
    BosInv M pop 0 0 (bosInit M pop.length) := by
  have hnr := bosInit_not_ranked M pop.length
  have hnoproc : ∀ r j, ¬ Proc M pop.length 0 0 r j := by
    intro r j h
    unfold Proc at h
    omega
  refine ⟨?_, ?_, ?_, ?_, ?_, ?_, ?_, ?_, ?_, ?_, ?_, ?_, ?_, ?_⟩
  · unfold bosInit
    simp
  · unfold bosInit
    simp
  · unfold bosInit
    simp
  · unfold bosInit
    simp
  · intro k hk
    unfold bosInit
    simp only
    have h1 : (List.replicate pop.length
        (List.replicate M ([] : List ℕ))).getD k [] = List.replicate M [] := by
      rw [List.getD_eq_getElem _ _ (by simpa using hk), List.getElem_replicate]
    rw [h1, List.length_replicate]
  · intro v
    rw [hnr v]
    constructor
    · intro h
      exact absurd h (by simp)
    · rintro ⟨r, j, hp, _⟩
      exact absurd hp (hnoproc r j)
  · intro r j hp
    exact absurd hp (hnoproc r j)
  · intro k j v hv
    rw [bosInit_bucket] at hv
    exact absurd hv (List.not_mem_nil v)
  · intro v hv
    rw [hnr v] at hv
    exact absurd hv (by simp)
  · intro v hv
    rw [hnr v] at hv
    exact absurd hv (by simp)
  · unfold bosInit
    simp only
    symm
    rw [List.countP_eq_zero]
    intro v _
    rw [replicate_getD]
    simp
  · right
    unfold bosInit
    exact ⟨rfl, rfl⟩
  · intro r
    unfold bosInit
    simp only
    rw [List.getD_eq_default _ _ (by simp)]
    symm
    rw [List.countP_eq_zero]
    intro v _
    rw [replicate_getD]
    simp
  · intro r hr
    right
    unfold bosInit at hr ⊢
    simp only at hr
    exact ⟨rfl, by omega⟩

/-- With at least one ranked member, every open rank is inhabited, so the
rank count is at most the number of ranked members. -/
lemma BosInv.rc_le (M : ℕ) (pop : List (List ℤ)) (i jc : ℕ) (st : BosState)
    (inv : BosInv M pop i jc st) (h1 : 1 ≤ st.solutions_completed) :
    st.rank_count ≤ st.solutions_completed := by
  rw [inv.hcompleted]
  apply rank_count_le pop.length st.rank_count _
    (fun v => st.pareto.ranks.getD v 0)
  intro r hr
  rcases inv.hrank_nonempty r hr with h | h
  · exact h
  · omega

/-- The count of ranked members never exceeds the population size. -/
lemma BosInv.completed_le (M : ℕ) (pop : List (List ℤ)) (i jc : ℕ)
    (st : BosState) (inv : BosInv M pop i jc st) :
    st.solutions_completed ≤ pop.length := by
  rw [inv.hcompleted]
  have := List.countP_le_length (l := List.range pop.length)
    (p := fun v => st.is_ranked.getD v false)
  simpa using this

/-- A ranked member witnesses at least one completed solution. -/
lemma BosInv.one_le_completed (M : ℕ) (pop : List (List ℤ)) (i jc : ℕ)
    (st : BosState) (inv : BosInv M pop i jc st) (v : ℕ) (hv : v < pop.length)
    (hr : st.is_ranked.getD v false = true) :
    1 ≤ st.solutions_completed := by
  rw [inv.hcompleted]
  have : 0 < List.countP (fun v => st.is_ranked.getD v false)
      (List.range pop.length) :=
    List.countP_pos_iff.mpr ⟨v, by rw [List.mem_range]; omega, hr⟩
  omega

/-- An unranked member witnesses an incomplete count. -/
lemma BosInv.completed_lt (M : ℕ) (pop : List (List ℤ)) (i jc : ℕ)
    (st : BosState) (inv : BosInv M pop i jc st) (v : ℕ) (hv : v < pop.length)
    (hnr : st.is_ranked.getD v false = false) :
    st.solutions_completed < pop.length := by
  have hle := inv.completed_le M pop i jc st
  rcases lt_or_eq_of_le hle with h | h
  · exact h
  · exfalso
    rw [inv.hcompleted] at h
    have := List.countP_eq_length.mp (by rw [h]; simp) v
      (by rw [List.mem_range]; omega)
    simp only [hnr] at this
    exact absurd this (by simp)

/-- The bucket domination check succeeds exactly when the bucket holds a
strict dominator. -/
lemma anyDomB_iff (M : ℕ) (hM : 0 < M) (pop : List (List ℤ))
    (l : List (List (List ℕ))) (k j s : ℕ) :
    anyDomB M pop l k j s = true ↔
      ∃ t ∈ (l.getD k []).getD j [],
        StrictDom M (pop.getD t []) (pop.getD s []) := by
  unfold anyDomB
  rw [List.any_eq_true]
  constructor
  · rintro ⟨t, ht, hc⟩
    rw [decide_eq_true_eq] at hc
    exact ⟨t, ht, (cmp_dom_eq_BOverA_iff M hM _ _).mp hc⟩
  · rintro ⟨t, ht, hd⟩
    refine ⟨t, ht, ?_⟩
    rw [decide_eq_true_eq]
    exact (cmp_dom_eq_BOverA_iff M hM _ _).mpr hd

/-- Invariant step, already-ranked branch: the member is appended to its
rank's bucket and nothing else changes. -/
lemma bosCell_inv_A (M : ℕ) (pop : List (List ℤ)) (i jc : ℕ) (st : BosState)
    (c2 : List (List ℕ)) (hi : i < pop.length) (hjc : jc < M)
    (inv : BosInv M pop i jc st) (s : ℕ) (hs : qv M pop jc i = s)
    (hr : st.is_ranked.getD s false = true) :
    BosInv M pop i (jc + 1)
      { st with c := c2, l := pushL st.l (st.pareto.ranks.getD s 0) jc s } := by
  have hsP : s < pop.length := by
    rw [← hs]
    exact qv_lt M pop jc hjc i hi
  have hone : 1 ≤ st.solutions_completed :=
    inv.one_le_completed M pop i jc st s hsP hr
  have hrcle : st.rank_count ≤ st.solutions_completed :=
    inv.rc_le M pop i jc st hone
  have hcomp_le : st.solutions_completed ≤ pop.length :=
    inv.completed_le M pop i jc st
  have hrkP : st.pareto.ranks.getD s 0 < pop.length :=
    lt_of_lt_of_le (inv.hrk_lt s hr) (le_trans hrcle hcomp_le)
  have hkl : st.pareto.ranks.getD s 0 < st.l.length := by
    rw [inv.hl_len]
    exact hrkP
  have hjl : jc < (st.l.getD (st.pareto.ranks.getD s 0) []).length := by
    rw [inv.hl_inner _ hrkP]
    exact hjc
  have H4 : (pushL st.l (st.pareto.ranks.getD s 0) jc s).length = pop.length := by
    rw [pushL_length]
    exact inv.hl_len
  have H5 : ∀ k, k < pop.length →
      ((pushL st.l (st.pareto.ranks.getD s 0) jc s).getD k []).length = M := by
    intro k hk
    rw [pushL_getD_len _ _ _ _ _ hkl]
    exact inv.hl_inner k hk
  have H6 : ∀ v, st.is_ranked.getD v false = true ↔
      ∃ r j, Proc M pop.length i (jc + 1) r j ∧ qv M pop j r = v := by
    intro v
    constructor
    · intro hv
      obtain ⟨r, j, hp, hq⟩ := (inv.hranked_iff v).mp hv
      exact ⟨r, j, Proc_mono _ _ _ _ _ _ hp, hq⟩
    · rintro ⟨r, j, hp, hq⟩
      rcases (Proc_succ M pop.length i jc r j).mp hp with hold | hnew
      · exact (inv.hranked_iff v).mpr ⟨r, j, hold, hq⟩
      · obtain ⟨hri, hjjc, _, _⟩ := hnew
        subst hri
        subst hjjc
        rw [hs] at hq
        subst hq
        exact hr
  have H7 : ∀ r j, Proc M pop.length i (jc + 1) r j →
      qv M pop j r ∈
        ((pushL st.l (st.pareto.ranks.getD s 0) jc s).getD
          (st.pareto.ranks.getD (qv M pop j r) 0) []).getD j [] := by
    intro r j hp
    rw [pushL_bucket _ _ _ _ _ _ hkl hjl]
    split_ifs with hcond
    · rcases (Proc_succ M pop.length i jc r j).mp hp with hold | hnew
      · obtain ⟨h1, h2⟩ := hcond
        subst h2
        have hmem := inv.hmemL r j hold
        rw [h1] at hmem
        exact List.mem_append_left _ hmem
      · obtain ⟨hri, hjjc, _, _⟩ := hnew
        subst hri
        subst hjjc
        rw [hs]
        exact List.mem_append_right _ (by simp)
    · rcases (Proc_succ M pop.length i jc r j).mp hp with hold | hnew
      · exact inv.hmemL r j hold
      · exfalso
        apply hcond
        obtain ⟨hri, hjjc, _, _⟩ := hnew
        subst hri
        subst hjjc
        rw [hs]
        exact ⟨rfl, rfl⟩
  have H8 : ∀ k j v,
      v ∈ ((pushL st.l (st.pareto.ranks.getD s 0) jc s).getD k []).getD j [] →
      v < pop.length ∧ st.is_ranked.getD v false = true ∧
        st.pareto.ranks.getD v 0 = k := by
    intro k j v hv
    rw [pushL_bucket _ _ _ _ _ _ hkl hjl] at hv
    split_ifs at hv with hcond
    · rcases List.mem_append.mp hv with hvo | hvs
      · obtain ⟨h1, h2, h3⟩ :=
          inv.hLsound (st.pareto.ranks.getD s 0) jc v hvo
        refine ⟨h1, h2, ?_⟩
        rw [hcond.1]
        exact h3
      · have hvseq : v = s := by simpa using hvs
        subst hvseq
        exact ⟨hsP, hr, hcond.1.symm⟩
    · exact inv.hLsound k j v hv
  exact ⟨inv.hranks_len, inv.hranked_len, inv.hrc1, H4, H5, H6, H7, H8,
    inv.hcore, inv.hrk_lt, inv.hcompleted, inv.hcounts_len, inv.hcounts,
    inv.hrank_nonempty⟩

lemma add_ranking_ranks (p : ParetoFronts) (idx rank : ℕ) :
    (p.add_ranking idx rank).ranks = p.ranks.set idx rank := by
  unfold ParetoFronts.add_ranking
  split_ifs <;> rfl

lemma add_ranking_counts_lt (p : ParetoFronts) (idx rank : ℕ)
    (h : rank < p.counts.length) :
    (p.add_ranking idx rank).counts =
      p.counts.set rank (p.counts.getD rank 0 + 1) := by
  unfold ParetoFronts.add_ranking
  rw [if_pos h]

lemma add_ranking_counts_ge (p : ParetoFronts) (idx rank : ℕ)
    (h : ¬ rank < p.counts.length) :
    (p.add_ranking idx rank).counts =
      (p.counts ++ List.replicate (rank + 1 - p.counts.length) 0).set rank 1 := by
  unfold ParetoFronts.add_ranking
  rw [if_neg h]

/-- Invariant step, FindRank-success branch: the first rank k whose bucket
holds no dominator of s receives s, and s's rank is 0 exactly when s is
non-dominated. -/
lemma bosCell_inv_B (M : ℕ) (pop : List (List ℤ)) (i jc : ℕ) (st : BosState)
    (c2 : List (List ℕ)) (hM : 0 < M) (hi : i < pop.length) (hjc : jc < M)
    (inv : BosInv M pop i jc st) (s : ℕ) (hs : qv M pop jc i = s)
    (hnr : st.is_ranked.getD s false = false) (k : ℕ)
    (hfind : (List.range st.rank_count).find?
      (fun r => ! anyDomB M pop st.l r jc s) = some k) :
    BosInv M pop i (jc + 1)
      { st with
        c := c2
        l := pushL st.l k jc s
        pareto := st.pareto.add_ranking s k
        is_ranked := st.is_ranked.set s true
        solutions_completed := st.solutions_completed + 1 } := by
  obtain ⟨hkrc, hpk, hfirst⟩ := find?_range_some_inv _ _ _ hfind
  have hadk : anyDomB M pop st.l k jc s = false := by simpa using hpk
  have hany_lt : ∀ j, j < k → anyDomB M pop st.l j jc s = true := by
    intro j hj
    have := hfirst j hj
    simpa using this
  have hsP : s < pop.length := by
    rw [← hs]
    exact qv_lt M pop jc hjc i hi
  have hPpos : 0 < pop.length := by omega
  have hcompl_lt : st.solutions_completed < pop.length :=
    inv.completed_lt M pop i jc st s hsP hnr
  have hRC1 : st.solutions_completed = 0 → st.rank_count = 1 := by
    intro hc0
    have h2 : ∀ r, r < st.rank_count → r = 0 := by
      intro r hrr
      rcases inv.hrank_nonempty r hrr with ⟨v, hv, hrv, _⟩ | ⟨_, h⟩
      · exfalso
        have := inv.one_le_completed M pop i jc st v hv hrv
        omega
      · exact h
    have h1 := inv.hrc1
    by_contra hne
    have := h2 1 (by omega)
    omega
  have hkP : k < pop.length := by
    rcases Nat.eq_zero_or_pos st.solutions_completed with hc0 | hcpos
    · have := hRC1 hc0
      omega
    · have := inv.rc_le M pop i jc st hcpos
      omega
  have hkl : k < st.l.length := by
    rw [inv.hl_len]
    exact hkP
  have hjl : jc < (st.l.getD k []).length := by
    rw [inv.hl_inner k hkP]
    exact hjc
  have hrkN : (st.pareto.add_ranking s k).ranks = st.pareto.ranks.set s k :=
    add_ranking_ranks _ _ _
  have hRK_s : (st.pareto.add_ranking s k).ranks.getD s 0 = k := by
    rw [hrkN]
    exact getD_set_eq _ _ _ _ (by rw [inv.hranks_len]; exact hsP)
  have hRK_ne : ∀ v, v ≠ s → (st.pareto.add_ranking s k).ranks.getD v 0 =
      st.pareto.ranks.getD v 0 := by
    intro v hv
    rw [hrkN]
    exact getD_set_ne _ _ _ _ _ (fun h => hv h.symm)
  have hIR_s : (st.is_ranked.set s true).getD s false = true :=
    getD_set_eq _ _ _ _ (by rw [inv.hranked_len]; exact hsP)
  have hIR_ne : ∀ v, v ≠ s → (st.is_ranked.set s true).getD v false =
      st.is_ranked.getD v false := by
    intro v hv
    exact getD_set_ne _ _ _ _ _ (fun h => hv h.symm)
  have hne_of_ranked : ∀ v, st.is_ranked.getD v false = true → v ≠ s := by
    intro v hv he
    rw [he, hnr] at hv
    exact absurd hv (by simp)
  have hdom_of_any : ∀ k', anyDomB M pop st.l k' jc s = true →
      ∃ t, t < pop.length ∧ Dominates M pop t s := by
    intro k' h
    obtain ⟨t, ht, hd⟩ := (anyDomB_iff M hM pop st.l k' jc s).mp h
    obtain ⟨h1, _, _⟩ := inv.hLsound k' jc t ht
    exact ⟨t, h1, hd⟩
  have hnd_imp : NonDominated M pop s → k = 0 := by
    intro hnd
    by_contra hk0
    obtain ⟨t, htP, htd⟩ := hdom_of_any 0 (hany_lt 0 (Nat.pos_of_ne_zero hk0))
    exact hnd t htP htd
  have himp_nd : k = 0 → NonDominated M pop s := by
    intro hk0 w hw hdw
    obtain ⟨d, hdP, hds, hdn⟩ :=
      exists_maximal_dominator M pop hM s ⟨w, hw, hdw⟩
    have hfit : fitAt (pop.getD (((bosQ M pop).getD jc []).getD i 0) []) jc <
        fitAt (pop.getD d []) jc := by
      have h1 : qv M pop jc i = ((bosQ M pop).getD jc []).getD i 0 := rfl
      rw [← h1, hs]
      exact hds jc hjc
    obtain ⟨r, hri, hqr⟩ := bosQ_dominator_earlier M pop jc hjc i hi d hdP hfit
    have hqr' : qv M pop jc r = d := hqr
    have hproc : Proc M pop.length i jc r jc := ⟨hjc, by omega, Or.inl hri⟩
    have hdranked : st.is_ranked.getD d false = true :=
      (inv.hranked_iff d).mpr ⟨r, jc, hproc, hqr'⟩
    have hd0 : st.pareto.ranks.getD d 0 = 0 := (inv.hcore d hdranked).mpr hdn
    have hdmem := inv.hmemL r jc hproc
    rw [hqr', hd0] at hdmem
    have hany0 : anyDomB M pop st.l 0 jc s = true :=
      (anyDomB_iff M hM pop st.l 0 jc s).mpr ⟨d, hdmem, hds⟩
    rw [hk0] at hadk
    rw [hadk] at hany0
    exact absurd hany0 (by simp)
  have H1 : (st.pareto.add_ranking s k).ranks.length = pop.length := by
    rw [hrkN, List.length_set]
    exact inv.hranks_len
  have H2 : (st.is_ranked.set s true).length = pop.length := by
    rw [List.length_set]
    exact inv.hranked_len
  have H4 : (pushL st.l k jc s).length = pop.length := by
    rw [pushL_length]
    exact inv.hl_len
  have H5 : ∀ k', k' < pop.length →
      ((pushL st.l k jc s).getD k' []).length = M := by
    intro k' hk'
    rw [pushL_getD_len _ _ _ _ _ hkl]
    exact inv.hl_inner k' hk'
  have H6 : ∀ v, (st.is_ranked.set s true).getD v false = true ↔
      ∃ r j, Proc M pop.length i (jc + 1) r j ∧ qv M pop j r = v := by
    intro v
    by_cases hvs : v = s
    · subst hvs
      rw [hIR_s]
      constructor
      · intro _
        exact ⟨i, jc, Proc_new_cell M pop.length i jc hjc hi, hs⟩
      · intro _
        rfl
    · rw [hIR_ne v hvs]
      constructor
      · intro hv
        obtain ⟨r, j, hp, hq⟩ := (inv.hranked_iff v).mp hv
        exact ⟨r, j, Proc_mono _ _ _ _ _ _ hp, hq⟩
      · rintro ⟨r, j, hp, hq⟩
        rcases (Proc_succ M pop.length i jc r j).mp hp with hold | hnew
        · exact (inv.hranked_iff v).mpr ⟨r, j, hold, hq⟩
        · obtain ⟨hri, hjjc, _, _⟩ := hnew
          subst hri
          subst hjjc
          rw [hs] at hq
          exact absurd hq.symm hvs
  have H7 : ∀ r j, Proc M pop.length i (jc + 1) r j →
      qv M pop j r ∈
        ((pushL st.l k jc s).getD
          ((st.pareto.add_ranking s k).ranks.getD (qv M pop j r) 0) []).getD
          j [] := by
    intro r j hp
    rcases (Proc_succ M pop.length i jc r j).mp hp with hold | hnew
    · have hvr : st.is_ranked.getD (qv M pop j r) false = true :=
        (inv.hranked_iff (qv M pop j r)).mpr ⟨r, j, hold, rfl⟩
      have hvne : qv M pop j r ≠ s := hne_of_ranked _ hvr
      rw [hRK_ne _ hvne, pushL_bucket _ _ _ _ _ _ hkl hjl]
      split_ifs with hcond
      · obtain ⟨h1, h2⟩ := hcond
        subst h2
        have hmem := inv.hmemL r j hold
        rw [h1] at hmem
        exact List.mem_append_left _ hmem
      · exact inv.hmemL r j hold
    · obtain ⟨hri, hjjc, _, _⟩ := hnew
      subst hri
      subst hjjc
      rw [hs, hRK_s, pushL_bucket _ _ _ _ _ _ hkl hjl, if_pos ⟨rfl, rfl⟩]
      exact List.mem_append_right _ (by simp)
  have H8 : ∀ k' j v,
      v ∈ ((pushL st.l k jc s).getD k' []).getD j [] →
      v < pop.length ∧ (st.is_ranked.set s true).getD v false = true ∧
        (st.pareto.add_ranking s k).ranks.getD v 0 = k' := by
    intro k' j v hv
    rw [pushL_bucket _ _ _ _ _ _ hkl hjl] at hv
    split_ifs at hv with hcond
    · rcases List.mem_append.mp hv with hvo | hvs
      · obtain ⟨h1, h2, h3⟩ := inv.hLsound k jc v hvo
        have hvne : v ≠ s := hne_of_ranked v h2
        refine ⟨h1, ?_, ?_⟩
        · rw [hIR_ne v hvne]
          exact h2
        · rw [hRK_ne v hvne, hcond.1]
          exact h3
      · have hvseq : v = s := by simpa using hvs
        subst hvseq
        refine ⟨hsP, hIR_s, ?_⟩
        rw [hRK_s]
        exact hcond.1.symm
    · obtain ⟨h1, h2, h3⟩ := inv.hLsound k' j v hv
      have hvne : v ≠ s := hne_of_ranked v h2
      refine ⟨h1, ?_, ?_⟩
      · rw [hIR_ne v hvne]
        exact h2
      · rw [hRK_ne v hvne]
        exact h3
  have H9 : ∀ v, (st.is_ranked.set s true).getD v false = true →
      ((st.pareto.add_ranking s k).ranks.getD v 0 = 0 ↔
        NonDominated M pop v) := by
    intro v hv
    by_cases hvs : v = s
    · subst hvs
      rw [hRK_s]
      exact ⟨himp_nd, hnd_imp⟩
    · rw [hIR_ne v hvs] at hv
      rw [hRK_ne v hvs]
      exact inv.hcore v hv
  have H10 : ∀ v, (st.is_ranked.set s true).getD v false = true →
      (st.pareto.add_ranking s k).ranks.getD v 0 < st.rank_count := by
    intro v hv
    by_cases hvs : v = s
    · subst hvs
      rw [hRK_s]
      exact hkrc
    · rw [hIR_ne v hvs] at hv
      rw [hRK_ne v hvs]
      exact inv.hrk_lt v hv
  have H11 : st.solutions_completed + 1 =
      List.countP (fun v => (st.is_ranked.set s true).getD v false)
        (List.range pop.length) := by
    have hstep := countP_range_update pop.length s hsP
      (fun v => st.is_ranked.getD v false)
      (fun v => (st.is_ranked.set s true).getD v false)
      (fun v hv => (hIR_ne v hv).symm) hnr
    rw [hstep, ← inv.hcompleted]
    show st.solutions_completed + 1 = st.solutions_completed +
      (if (st.is_ranked.set s true).getD s false = true then 1 else 0)
    rw [hIR_s, if_pos rfl]
  have H12 : (st.pareto.add_ranking s k).counts.length = st.rank_count ∨
      ((st.pareto.add_ranking s k).counts = [] ∧
        st.solutions_completed + 1 = 0) := by
    left
    rcases inv.hcounts_len with hlen | ⟨hemp, hc0⟩
    · have hklen : k < st.pareto.counts.length := by
        rw [hlen]
        exact hkrc
      rw [add_ranking_counts_lt _ _ _ hklen, List.length_set]
      exact hlen
    · have hrc1' : st.rank_count = 1 := hRC1 hc0
      have hk0 : k = 0 := by omega
      rw [add_ranking_counts_ge _ _ _ (by rw [hemp]; simp)]
      rw [hemp, hk0, hrc1']
      simp
  have hgetD_step : ∀ r, (st.pareto.add_ranking s k).counts.getD r 0 =
      st.pareto.counts.getD r 0 + (if k = r then 1 else 0) := by
    intro r
    rcases inv.hcounts_len with hlen | ⟨hemp, hc0⟩
    · have hklen : k < st.pareto.counts.length := by
        rw [hlen]
        exact hkrc
      rw [add_ranking_counts_lt _ _ _ hklen]
      by_cases hkr : k = r
      · subst hkr
        rw [getD_set_eq _ _ _ _ hklen, if_pos rfl]
      · rw [getD_set_ne _ _ _ _ _ hkr, if_neg hkr]
        omega
    · have hrc1' : st.rank_count = 1 := hRC1 hc0
      have hk0 : k = 0 := by omega
      rw [add_ranking_counts_ge _ _ _ (by rw [hemp]; simp), hemp, hk0]
      match r with
      | 0 => simp
      | r' + 1 => simp
  have hcount_step : ∀ r,
      List.countP (fun v => (st.is_ranked.set s true).getD v false &&
        ((st.pareto.add_ranking s k).ranks.getD v 0 == r))
        (List.range pop.length) =
      List.countP (fun v => st.is_ranked.getD v false &&
        (st.pareto.ranks.getD v 0 == r)) (List.range pop.length) +
        (if k = r then 1 else 0) := by
    intro r
    have hstep := countP_range_update pop.length s hsP
      (fun v => st.is_ranked.getD v false && (st.pareto.ranks.getD v 0 == r))
      (fun v => (st.is_ranked.set s true).getD v false &&
        ((st.pareto.add_ranking s k).ranks.getD v 0 == r))
      (fun v hv => by
        show (st.is_ranked.getD v false && (st.pareto.ranks.getD v 0 == r)) =
          ((st.is_ranked.set s true).getD v false &&
            ((st.pareto.add_ranking s k).ranks.getD v 0 == r))
        rw [hIR_ne v hv, hRK_ne v hv])
      (by
        show (st.is_ranked.getD s false && (st.pareto.ranks.getD s 0 == r)) =
          false
        rw [hnr]
        simp)
    rw [hstep]
    congr 1
    have hc : ((st.is_ranked.set s true).getD s false &&
        ((st.pareto.add_ranking s k).ranks.getD s 0 == r)) = (k == r) := by
      rw [hIR_s, hRK_s]
      simp
    show (if ((st.is_ranked.set s true).getD s false &&
        ((st.pareto.add_ranking s k).ranks.getD s 0 == r)) = true
      then 1 else 0) = if k = r then 1 else 0
    rw [hc]
    by_cases hkr : k = r
    · rw [if_pos (by simpa using hkr), if_pos hkr]
    · rw [if_neg (by simpa using hkr), if_neg hkr]
  have H13 : ∀ r, (st.pareto.add_ranking s k).counts.getD r 0 =
      List.countP (fun v => (st.is_ranked.set s true).getD v false &&
        ((st.pareto.add_ranking s k).ranks.getD v 0 == r))
        (List.range pop.length) := by
    intro r
    rw [hgetD_step r, inv.hcounts r, hcount_step r]
  have H14 : ∀ r, r < st.rank_count →
      (∃ v, v < pop.length ∧ (st.is_ranked.set s true).getD v false = true ∧
        (st.pareto.add_ranking s k).ranks.getD v 0 = r) ∨
      (st.solutions_completed + 1 = 0 ∧ r = 0) := by
    intro r hr
    left
    rcases inv.hrank_nonempty r hr with ⟨v, hv, hrv, hrkv⟩ | ⟨hc0, hr0⟩
    · have hvne : v ≠ s := hne_of_ranked v hrv
      refine ⟨v, hv, ?_, ?_⟩
      · rw [hIR_ne v hvne]
        exact hrv
      · rw [hRK_ne v hvne]
        exact hrkv
    · have hrc1' : st.rank_count = 1 := hRC1 hc0
      have hk0 : k = 0 := by omega
      refine ⟨s, hsP, hIR_s, ?_⟩
      rw [hRK_s]
      omega
  exact ⟨H1, H2, inv.hrc1, H4, H5, H6, H7, H8, H9, H10, H11, H12, H13, H14⟩

/-- Invariant step, FindRank-exhausted branch: every open rank's bucket
holds a dominator of s, so a new rank is opened for s; in particular s is
dominated, so its nonzero rank is correct. -/
lemma bosCell_inv_C (M : ℕ) (pop : List (List ℤ)) (i jc : ℕ) (st : BosState)
    (c2 : List (List ℕ)) (hM : 0 < M) (hi : i < pop.length) (hjc : jc < M)
    (inv : BosInv M pop i jc st) (s : ℕ) (hs : qv M pop jc i = s)
    (hnr : st.is_ranked.getD s false = false)
    (hfind : (List.range st.rank_count).find?
      (fun r => ! anyDomB M pop st.l r jc s) = none) :
    BosInv M pop i (jc + 1)
      { st with
        c := c2
        l := pushL st.l st.rank_count jc s
        pareto := st.pareto.add_ranking s st.rank_count
        rank_count := st.rank_count + 1
        is_ranked := st.is_ranked.set s true
        solutions_completed := st.solutions_completed + 1 } := by
  have hsP : s < pop.length := by
    rw [← hs]
    exact qv_lt M pop jc hjc i hi
  have hcompl_lt : st.solutions_completed < pop.length :=
    inv.completed_lt M pop i jc st s hsP hnr
  have hany0 : anyDomB M pop st.l 0 jc s = true := by
    have := List.find?_eq_none.mp hfind 0
      (by rw [List.mem_range]; exact inv.hrc1)
    simpa using this
  obtain ⟨t, ht, htd⟩ := (anyDomB_iff M hM pop st.l 0 jc s).mp hany0
  obtain ⟨htP, htr, _⟩ := inv.hLsound 0 jc t ht
  have hone : 1 ≤ st.solutions_completed :=
    inv.one_le_completed M pop i jc st t htP htr
  have hrcle : st.rank_count ≤ st.solutions_completed :=
    inv.rc_le M pop i jc st hone
  have hRCP : st.rank_count < pop.length := by omega
  have hlen : st.pareto.counts.length = st.rank_count := by
    rcases inv.hcounts_len with h | ⟨_, hc0⟩
    · exact h
    · omega
  have hkl : st.rank_count < st.l.length := by
    rw [inv.hl_len]
    exact hRCP
  have hjl : jc < (st.l.getD st.rank_count []).length := by
    rw [inv.hl_inner st.rank_count hRCP]
    exact hjc
  have hrkN : (st.pareto.add_ranking s st.rank_count).ranks =
      st.pareto.ranks.set s st.rank_count := add_ranking_ranks _ _ _
  have hRK_s : (st.pareto.add_ranking s st.rank_count).ranks.getD s 0 =
      st.rank_count := by
    rw [hrkN]
    exact getD_set_eq _ _ _ _ (by rw [inv.hranks_len]; exact hsP)
  have hRK_ne : ∀ v, v ≠ s →
      (st.pareto.add_ranking s st.rank_count).ranks.getD v 0 =
        st.pareto.ranks.getD v 0 := by
    intro v hv
    rw [hrkN]
    exact getD_set_ne _ _ _ _ _ (fun h => hv h.symm)
  have hIR_s : (st.is_ranked.set s true).getD s false = true :=
    getD_set_eq _ _ _ _ (by rw [inv.hranked_len]; exact hsP)
  have hIR_ne : ∀ v, v ≠ s → (st.is_ranked.set s true).getD v false =
      st.is_ranked.getD v false := by
    intro v hv
    exact getD_set_ne _ _ _ _ _ (fun h => hv h.symm)
  have hne_of_ranked : ∀ v, st.is_ranked.getD v false = true → v ≠ s := by
    intro v hv he
    rw [he, hnr] at hv
    exact absurd hv (by simp)
  have hnots : ¬ NonDominated M pop s := by
    intro hnd
    exact hnd t htP htd
  have H1 : (st.pareto.add_ranking s st.rank_count).ranks.length =
      pop.length := by
    rw [hrkN, List.length_set]
    exact inv.hranks_len
  have H2 : (st.is_ranked.set s true).length = pop.length := by
    rw [List.length_set]
    exact inv.hranked_len
  have H4 : (pushL st.l st.rank_count jc s).length = pop.length := by
    rw [pushL_length]
    exact inv.hl_len
  have H5 : ∀ k', k' < pop.length →
      ((pushL st.l st.rank_count jc s).getD k' []).length = M := by
    intro k' hk'
    rw [pushL_getD_len _ _ _ _ _ hkl]
    exact inv.hl_inner k' hk'
  have H6 : ∀ v, (st.is_ranked.set s true).getD v false = true ↔
      ∃ r j, Proc M pop.length i (jc + 1) r j ∧ qv M pop j r = v := by
    intro v
    by_cases hvs : v = s
    · subst hvs
      rw [hIR_s]
      constructor
      · intro _
        exact ⟨i, jc, Proc_new_cell M pop.length i jc hjc hi, hs⟩
      · intro _
        rfl
    · rw [hIR_ne v hvs]
      constructor
      · intro hv
        obtain ⟨r, j, hp, hq⟩ := (inv.hranked_iff v).mp hv
        exact ⟨r, j, Proc_mono _ _ _ _ _ _ hp, hq⟩
      · rintro ⟨r, j, hp, hq⟩
        rcases (Proc_succ M pop.length i jc r j).mp hp with hold | hnew
        · exact (inv.hranked_iff v).mpr ⟨r, j, hold, hq⟩
        · obtain ⟨hri, hjjc, _, _⟩ := hnew
          subst hri
          subst hjjc
          rw [hs] at hq
          exact absurd hq.symm hvs
  have H7 : ∀ r j, Proc M pop.length i (jc + 1) r j →
      qv M pop j r ∈
        ((pushL st.l st.rank_count jc s).getD
          ((st.pareto.add_ranking s st.rank_count).ranks.getD
            (qv M pop j r) 0) []).getD j [] := by
    intro r j hp
    rcases (Proc_succ M pop.length i jc r j).mp hp with hold | hnew
    · have hvr : st.is_ranked.getD (qv M pop j r) false = true :=
        (inv.hranked_iff (qv M pop j r)).mpr ⟨r, j, hold, rfl⟩
      have hvne : qv M pop j r ≠ s := hne_of_ranked _ hvr
      rw [hRK_ne _ hvne, pushL_bucket _ _ _ _ _ _ hkl hjl]
      split_ifs with hcond
      · obtain ⟨h1, h2⟩ := hcond
        subst h2
        have hmem := inv.hmemL r j hold
        rw [h1] at hmem
        exact List.mem_append_left _ hmem
      · exact inv.hmemL r j hold
    · obtain ⟨hri, hjjc, _, _⟩ := hnew
      subst hri
      subst hjjc
      rw [hs, hRK_s, pushL_bucket _ _ _ _ _ _ hkl hjl, if_pos ⟨rfl, rfl⟩]
      exact List.mem_append_right _ (by simp)
  have H8 : ∀ k' j v,
      v ∈ ((pushL st.l st.rank_count jc s).getD k' []).getD j [] →
      v < pop.length ∧ (st.is_ranked.set s true).getD v false = true ∧
        (st.pareto.add_ranking s st.rank_count).ranks.getD v 0 = k' := by
    intro k' j v hv
    rw [pushL_bucket _ _ _ _ _ _ hkl hjl] at hv
    split_ifs at hv with hcond
    · rcases List.mem_append.mp hv with hvo | hvs
      · obtain ⟨h1, h2, h3⟩ := inv.hLsound st.rank_count jc v hvo
        have hvne : v ≠ s := hne_of_ranked v h2
        refine ⟨h1, ?_, ?_⟩
        · rw [hIR_ne v hvne]
          exact h2
        · rw [hRK_ne v hvne, hcond.1]
          exact h3
      · have hvseq : v = s := by simpa using hvs
        subst hvseq
        refine ⟨hsP, hIR_s, ?_⟩
        rw [hRK_s]
        exact hcond.1.symm
    · obtain ⟨h1, h2, h3⟩ := inv.hLsound k' j v hv
      have hvne : v ≠ s := hne_of_ranked v h2
      refine ⟨h1, ?_, ?_⟩
      · rw [hIR_ne v hvne]
        exact h2
      · rw [hRK_ne v hvne]
        exact h3
  have H9 : ∀ v, (st.is_ranked.set s true).getD v false = true →
      ((st.pareto.add_ranking s st.rank_count).ranks.getD v 0 = 0 ↔
        NonDominated M pop v) := by
    intro v hv
    by_cases hvs : v = s
    · subst hvs
      rw [hRK_s]
      constructor
      · intro h0
        have := inv.hrc1
        omega
      · intro hnd
        exact absurd hnd hnots
    · rw [hIR_ne v hvs] at hv
      rw [hRK_ne v hvs]
      exact inv.hcore v hv
  have H10 : ∀ v, (st.is_ranked.set s true).getD v false = true →
      (st.pareto.add_ranking s st.rank_count).ranks.getD v 0 <
        st.rank_count + 1 := by
    intro v hv
    by_cases hvs : v = s
    · subst hvs
      rw [hRK_s]
      omega
    · rw [hIR_ne v hvs] at hv
      rw [hRK_ne v hvs]
      have := inv.hrk_lt v hv
      omega
  have H11 : st.solutions_completed + 1 =
      List.countP (fun v => (st.is_ranked.set s true).getD v false)
        (List.range pop.length) := by
    have hstep := countP_range_update pop.length s hsP
      (fun v => st.is_ranked.getD v false)
      (fun v => (st.is_ranked.set s true).getD v false)
      (fun v hv => (hIR_ne v hv).symm) hnr
    rw [hstep, ← inv.hcompleted]
    show st.solutions_completed + 1 = st.solutions_completed +
      (if (st.is_ranked.set s true).getD s false = true then 1 else 0)
    rw [hIR_s, if_pos rfl]
  have hcountsN : (st.pareto.add_ranking s st.rank_count).counts =
      (st.pareto.counts ++ List.replicate 1 0).set st.rank_count 1 := by
    rw [add_ranking_counts_ge _ _ _ (by omega)]
    rw [hlen]
    have h1 : st.rank_count + 1 - st.rank_count = 1 := by omega
    rw [h1]
  have hcountsN_len : (st.pareto.add_ranking s st.rank_count).counts.length =
      st.rank_count + 1 := by
    rw [hcountsN, List.length_set, List.length_append, List.length_replicate,
      hlen]
  have H12 : (st.pareto.add_ranking s st.rank_count).counts.length =
      st.rank_count + 1 ∨
      ((st.pareto.add_ranking s st.rank_count).counts = [] ∧
        st.solutions_completed + 1 = 0) := Or.inl hcountsN_len
  have hgetD_step : ∀ r,
      (st.pareto.add_ranking s st.rank_count).counts.getD r 0 =
        st.pareto.counts.getD r 0 + (if st.rank_count = r then 1 else 0) := by
    intro r
    rw [hcountsN]
    rcases lt_trichotomy r st.rank_count with hlt | heq | hgt
    · rw [getD_set_ne _ _ _ _ _ (by omega), if_neg (by omega)]
      rw [getD_append_left2 _ _ _ _ (by rw [hlen]; omega)]
      omega
    · subst heq
      rw [getD_set_eq _ _ _ _
        (by rw [List.length_append, List.length_replicate, hlen]; omega)]
      rw [List.getD_eq_default _ _ (by rw [hlen])]
      simp
    · rw [getD_set_ne _ _ _ _ _ (by omega), if_neg (by omega)]
      rw [List.getD_eq_default _ _
        (by rw [List.length_append, List.length_replicate, hlen]; omega)]
      rw [List.getD_eq_default _ _ (by rw [hlen]; omega)]
  have hcount_step : ∀ r,
      List.countP (fun v => (st.is_ranked.set s true).getD v false &&
        ((st.pareto.add_ranking s st.rank_count).ranks.getD v 0 == r))
        (List.range pop.length) =
      List.countP (fun v => st.is_ranked.getD v false &&
        (st.pareto.ranks.getD v 0 == r)) (List.range pop.length) +
        (if st.rank_count = r then 1 else 0) := by
    intro r
    have hstep := countP_range_update pop.length s hsP
      (fun v => st.is_ranked.getD v false && (st.pareto.ranks.getD v 0 == r))
      (fun v => (st.is_ranked.set s true).getD v false &&
        ((st.pareto.add_ranking s st.rank_count).ranks.getD v 0 == r))
      (fun v hv => by
        show (st.is_ranked.getD v false && (st.pareto.ranks.getD v 0 == r)) =
          ((st.is_ranked.set s true).getD v false &&
            ((st.pareto.add_ranking s st.rank_count).ranks.getD v 0 == r))
        rw [hIR_ne v hv, hRK_ne v hv])
      (by
        show (st.is_ranked.getD s false && (st.pareto.ranks.getD s 0 == r)) =
          false
        rw [hnr]
        simp)
    rw [hstep]
    congr 1
    have hc : ((st.is_ranked.set s true).getD s false &&
        ((st.pareto.add_ranking s st.rank_count).ranks.getD s 0 == r)) =
        (st.rank_count == r) := by
      rw [hIR_s, hRK_s]
      simp
    show (if ((st.is_ranked.set s true).getD s false &&
        ((st.pareto.add_ranking s st.rank_count).ranks.getD s 0 == r)) = true
      then 1 else 0) = if st.rank_count = r then 1 else 0
    rw [hc]
    by_cases hkr : st.rank_count = r
    · rw [if_pos (by simpa using hkr), if_pos hkr]
    · rw [if_neg (by simpa using hkr), if_neg hkr]
  have H13 : ∀ r, (st.pareto.add_ranking s st.rank_count).counts.getD r 0 =
      List.countP (fun v => (st.is_ranked.set s true).getD v false &&
        ((st.pareto.add_ranking s st.rank_count).ranks.getD v 0 == r))
        (List.range pop.length) := by
    intro r
    rw [hgetD_step r, inv.hcounts r, hcount_step r]
  have H14 : ∀ r, r < st.rank_count + 1 →
      (∃ v, v < pop.length ∧ (st.is_ranked.set s true).getD v false = true ∧
        (st.pareto.add_ranking s st.rank_count).ranks.getD v 0 = r) ∨
      (st.solutions_completed + 1 = 0 ∧ r = 0) := by
    intro r hr
    left
    by_cases hrRC : r = st.rank_count
    · subst hrRC
      exact ⟨s, hsP, hIR_s, hRK_s⟩
    · rcases inv.hrank_nonempty r (by omega) with ⟨v, hv, hrv, hrkv⟩ |
        ⟨hc0, _⟩
      · have hvne : v ≠ s := hne_of_ranked v hrv
        refine ⟨v, hv, ?_, ?_⟩
        · rw [hIR_ne v hvne]
          exact hrv
        · rw [hRK_ne v hvne]
          exact hrkv
      · omega
  have H3 : 1 ≤ st.rank_count + 1 := by omega
  exact ⟨H1, H2, H3, H4, H5, H6, H7, H8, H9, H10, H11, H12, H13, H14⟩

/-- One cell step preserves the invariant. -/
lemma bosCell_inv (M : ℕ) (pop : List (List ℤ)) (i jc : ℕ) (st : BosState)
    (hM : 0 < M) (hi : i < pop.length) (hjc : jc < M)
    (inv : BosInv M pop i jc st) :
    BosInv M pop i (jc + 1) (bosCell M pop (bosQ M pop) i jc st) := by
  simp only [bosCell]
  split
  next hr =>
    exact bosCell_inv_A M pop i jc st _ hi hjc inv _ rfl hr
  next hr =>
    have hnr : st.is_ranked.getD (((bosQ M pop).getD jc []).getD i 0) false =
        false := by simpa using hr
    split
    next k heq =>
      exact bosCell_inv_B M pop i jc st _ hM hi hjc inv _ rfl hnr k heq
    next heq =>
      exact bosCell_inv_C M pop i jc st _ hM hi hjc inv _ rfl hnr heq

/-- A whole row preserves the invariant, advancing it to column M. -/
lemma bosRow_inv (M : ℕ) (pop : List (List ℤ)) (i : ℕ) (st : BosState)
    (hM : 0 < M) (hi : i < pop.length) (inv : BosInv M pop i 0 st) :
    BosInv M pop i M (bosRow M pop (bosQ M pop) i st) := by
  unfold bosRow
  suffices h : ∀ jc, jc ≤ M → BosInv M pop i jc
      ((List.range jc).foldl (fun st j => bosCell M pop (bosQ M pop) i j st)
        st) from h M le_rfl
  intro jc
  induction jc with
  | zero =>
      intro _
      simpa using inv
  | succ n ih =>
      intro hle
      rw [List.range_succ, List.foldl_append, List.foldl_cons, List.foldl_nil]
      exact bosCell_inv M pop i n _ hM hi (by omega) (ih (by omega))

/-- Crossing a row boundary only re-indexes the processed cells. -/
lemma BosInv_row_end (M : ℕ) (pop : List (List ℤ)) (i : ℕ) (st : BosState)
    (h : BosInv M pop i M st) : BosInv M pop (i + 1) 0 st := by
  refine ⟨h.hranks_len, h.hranked_len, h.hrc1, h.hl_len, h.hl_inner, ?_, ?_,
    h.hLsound, h.hcore, h.hrk_lt, h.hcompleted, h.hcounts_len, h.hcounts,
    h.hrank_nonempty⟩
  · intro v
    constructor
    · intro hv
      obtain ⟨r, j, hp, hq⟩ := (h.hranked_iff v).mp hv
      exact ⟨r, j, (Proc_row_end M pop.length i r j).mp hp, hq⟩
    · rintro ⟨r, j, hp, hq⟩
      exact (h.hranked_iff v).mpr
        ⟨r, j, (Proc_row_end M pop.length i r j).mpr hp, hq⟩
  · intro r j hp
    exact h.hmemL r j ((Proc_row_end M pop.length i r j).mpr hp)

/-- Once every member is ranked the invariant yields the final facts. -/
lemma BosInv_final (M : ℕ) (pop : List (List ℤ)) (i jc : ℕ) (st : BosState)
    (hP : 0 < pop.length) (inv : BosInv M pop i jc st)
    (hc : st.solutions_completed = pop.length) : BosFinal M pop st := by
  have hall : ∀ v, v < pop.length → st.is_ranked.getD v false = true := by
    intro v hv
    have hcp : List.countP (fun v => st.is_ranked.getD v false)
        (List.range pop.length) = (List.range pop.length).length := by
      rw [← inv.hcompleted, hc, List.length_range]
    exact List.countP_eq_length.mp hcp v (by rw [List.mem_range]; omega)
  refine ⟨inv.hranks_len, hc, ?_, ?_, ?_, ?_, ?_, inv.hrc1⟩
  · intro v hv
    exact inv.hcore v (hall v hv)
  · intro v hv
    exact inv.hrk_lt v (hall v hv)
  · rcases inv.hcounts_len with h | ⟨_, h0⟩
    · exact h
    · omega
  · intro r
    rw [inv.hcounts r]
    apply List.countP_congr
    intro v hv
    rw [List.mem_range] at hv
    show (st.is_ranked.getD v false && (st.pareto.ranks.getD v 0 == r)) = true
      ↔ (st.pareto.ranks.getD v 0 == r) = true
    rw [hall v hv]
    simp
  · intro r hr
    rcases inv.hrank_nonempty r hr with ⟨v, hv, _, hrk⟩ | ⟨h0, _⟩
    · exact ⟨v, hv, hrk⟩
    · omega

/-- The main loop establishes the final facts for a nonempty population
with at least one objective. -/
lemma bosMain_final (M : ℕ) (pop : List (List ℤ)) (hM : 0 < M)
    (hP : 0 < pop.length) :
    BosFinal M pop (bosMain M pop (bosQ M pop) pop.length) := by
  suffices h : ∀ n, n ≤ pop.length →
      BosInv M pop n 0 ((List.range n).foldl
        (fun st i => if st.solutions_completed = pop.length then st
          else bosRow M pop (bosQ M pop) i st) (bosInit M pop.length)) ∨
      BosFinal M pop ((List.range n).foldl
        (fun st i => if st.solutions_completed = pop.length then st
          else bosRow M pop (bosQ M pop) i st) (bosInit M pop.length)) by
    rcases h pop.length le_rfl with hinv | hfin
    · have hall : ∀ v, v < pop.length →
          (((List.range pop.length).foldl
            (fun st i => if st.solutions_completed = pop.length then st
              else bosRow M pop (bosQ M pop) i st)
            (bosInit M pop.length)).is_ranked.getD v false) = true := by
        intro v hv
        have hmem : v ∈ (bosQ M pop).getD 0 [] :=
          (bosQ_perm M pop 0 hM).mem_iff.mpr (by rw [List.mem_range]; omega)
        obtain ⟨r, hrlen, hrv⟩ := List.mem_iff_getElem.mp hmem
        have hrP : r < pop.length := by
          rw [bosQ_len M pop 0 hM] at hrlen
          exact hrlen
        have hq : qv M pop 0 r = v := by
          unfold qv
          rw [List.getD_eq_getElem _ _ hrlen, hrv]
        exact (hinv.hranked_iff v).mpr ⟨r, 0, ⟨hM, hrP, Or.inl hrP⟩, hq⟩
      have hcomp : (((List.range pop.length).foldl
          (fun st i => if st.solutions_completed = pop.length then st
            else bosRow M pop (bosQ M pop) i st)
          (bosInit M pop.length)).solutions_completed) = pop.length := by
        rw [hinv.hcompleted]
        have := (List.countP_eq_length
          (l := List.range pop.length)).mpr
          (fun v hv => hall v (List.mem_range.mp hv))
        rw [List.length_range] at this
        exact this
      exact BosInv_final M pop pop.length 0 _ hP hinv hcomp
    · exact hfin
  intro n
  induction n with
  | zero =>
      intro _
      left
      simpa using bosInit_inv M pop
  | succ m ih =>
      intro hle
      rw [List.range_succ, List.foldl_append, List.foldl_cons, List.foldl_nil]
      rcases ih (by omega) with hinv | hfin
      · by_cases hc : (((List.range m).foldl
            (fun st i => if st.solutions_completed = pop.length then st
              else bosRow M pop (bosQ M pop) i st)
            (bosInit M pop.length)).solutions_completed) = pop.length
        · rw [if_pos hc]
          right
          exact BosInv_final M pop m 0 _ hP hinv hc
        · rw [if_neg hc]
          left
          exact BosInv_row_end M pop m _
            (bosRow_inv M pop m _ hM (by omega) hinv)
      · have hc := hfin.hcompleted
        rw [if_pos hc]
        right
        exact hfin

/-- C1 (amended): for a population with at least one objective,
rank_nondominated assigns rank 0 to member i exactly when no member's
objective vector is strictly greater in every coordinate — the dominance
relation the source comparator actually decides, not the spec's
weak-Pareto dominance. -/
theorem C1_rank0_amended (M : ℕ) (pop : List (List ℤ)) (hM : 0 < M)
    (i : ℕ) (hi : i < pop.length) :
    ((rank_nondominated M pop).ranks.getD i 0 = 0 ↔
      ∀ w, w < pop.length →
        ¬ StrictDom M (pop.getD w []) (pop.getD i [])) := by
  have hfin := bosMain_final M pop hM (by omega)
  exact hfin.hcore i hi

theorem C1_rank0_amended_witness :
    0 < 2 ∧ 0 < ([[0, 100], [100, 0]] : List (List ℤ)).length ∧
    (((rank_nondominated 2 [[0, 100], [100, 0]]).ranks.getD 0 0 = 0) ↔
      ∀ w, w < ([[0, 100], [100, 0]] : List (List ℤ)).length →
        ¬ StrictDom 2 (([[0, 100], [100, 0]] : List (List ℤ)).getD w [])
          (([[0, 100], [100, 0]] : List (List ℤ)).getD 0 [])) :=
  ⟨by decide, by decide,
   C1_rank0_amended 2 [[0, 100], [100, 0]] (by decide) 0 (by decide)⟩

/-! ### Crowding distance (src/select/nsga.rs lines 177-214) -/

/-- The f64 values arising in the crowding-distance computation: finite
values are tracked exactly as rationals, the infinities and NaN explicitly
(0.0/0.0 is NaN, x/0.0 is a signed infinity for x ≠ 0). -/
inductive Fl where
  | ninf : Fl
  | num (q : ℚ) : Fl
  | inf : Fl
  | nan : Fl
deriving DecidableEq

/-- IEEE addition on the modelled values: NaN propagates, inf + (-inf) is
NaN, infinities absorb finite values. -/
def Fl.add : Fl → Fl → Fl
  | Fl.nan, _ => Fl.nan
  | _, Fl.nan => Fl.nan
  | Fl.inf, Fl.ninf => Fl.nan
  | Fl.ninf, Fl.inf => Fl.nan
  | Fl.inf, _ => Fl.inf
  | _, Fl.inf => Fl.inf
  | Fl.ninf, _ => Fl.ninf
  | _, Fl.ninf => Fl.ninf
  | Fl.num a, Fl.num b => Fl.num (a + b)

/-- IEEE division of two (exactly represented) values: division by zero
yields NaN for 0/0 and a signed infinity otherwise. -/
def fdivZ (a b : ℤ) : Fl :=
  if b = 0 then
    (if a = 0 then Fl.nan else if 0 < a then Fl.inf else Fl.ninf)
  else Fl.num ((a : ℚ) / (b : ℚ))

/-- The f64 total order (total_cmp), restricted to the modelled values:
-inf < finite < +inf < NaN.  (total_cmp puts -NaN first and +NaN last;
the NaN produced by 0.0/0.0 has platform-dependent sign, and no theorem
below depends on where nan is placed — only on the sort producing a
permutation.) -/
def flLeB : Fl → Fl → Bool
  | Fl.ninf, _ => true
  | _, Fl.nan => true
  | Fl.num a, Fl.num b => decide (a ≤ b)
  | Fl.num _, Fl.inf => true
  | Fl.inf, Fl.inf => true
  | _, _ => false

/-- One objective of sort_by_crowding_distance: sort the enumerated front
ascending by the objective, overwrite the two extreme members' distances
with +inf, and add (next - prev) / (max - min) to every interior member's
distance — the division is unguarded in the source. -/
def crowdStep (pop : List (List ℤ)) (m : ℕ)
    (st : List (ℕ × ℕ) × List Fl) : List (ℕ × ℕ) × List Fl :=
  let fe2 := st.1.insertionSort
    (fun a b => fitAt (pop.getD a.2 []) m ≤ fitAt (pop.getD b.2 []) m)
  let fs := fe2.length
  let mn := fitAt (pop.getD (fe2.getD 0 (0, 0)).2 []) m
  let mx := fitAt (pop.getD (fe2.getD (fs - 1) (0, 0)).2 []) m
  let ds2 := (st.2.set (fe2.getD 0 (0, 0)).1 Fl.inf).set
    (fe2.getD (fs - 1) (0, 0)).1 Fl.inf
  let ds3 := ((List.range (fs - 1)).drop 1).foldl (fun ds i =>
      ds.set (fe2.getD i (0, 0)).1
        (Fl.add (ds.getD (fe2.getD i (0, 0)).1 (Fl.num 0))
          (fdivZ (fitAt (pop.getD (fe2.getD (i + 1) (0, 0)).2 []) m -
            fitAt (pop.getD (fe2.getD (i - 1) (0, 0)).2 []) m)
            (mx - mn)))) ds2
  (fe2, ds3)

/-- The accumulated distances vector after all M objectives (indexed by
original front position). -/
def crowding_distances (M : ℕ) (pop : List (List ℤ)) (front : List ℕ) :
    List Fl :=
  ((List.range M).foldl (fun st m => crowdStep pop m st)
    ((List.range front.length).map (fun i => (i, front.getD i 0)),
     List.replicate front.length (Fl.num 0))).2

/-- Embedding of sort_by_crowding_distance: none models the index panic on
an empty front (front_enumerated[0] with M ≥ 1); otherwise the front
reordered descending by crowding distance. -/
def sort_by_crowding_distance (M : ℕ) (pop : List (List ℤ))
    (front : List ℕ) : Option (List ℕ) :=
  if front.isEmpty ∧ 0 < M then none
  else
    some (((((List.range M).foldl (fun st m => crowdStep pop m st)
        ((List.range front.length).map (fun i => (i, front.getD i 0)),
         List.replicate front.length (Fl.num 0))).1).insertionSort
      (fun a b =>
        flLeB ((((List.range M).foldl (fun st m => crowdStep pop m st)
            ((List.range front.length).map (fun i => (i, front.getD i 0)),
             List.replicate front.length (Fl.num 0))).2).getD b.1 (Fl.num 0))
          ((((List.range M).foldl (fun st m => crowdStep pop m st)
            ((List.range front.length).map (fun i => (i, front.getD i 0)),
             List.replicate front.length (Fl.num 0))).2).getD a.1
            (Fl.num 0)))).map
      (fun p => p.2))

/-- C9: the division by (max - min) is not guarded.  On a front of three
members with identical fitness in the single objective, the two extreme
members receive distance +inf and the interior member receives
0.0/0.0 = NaN — the objective does not "contribute zero" and a
divide-by-zero does occur. -/
theorem C9_crowding_divide_by_zero :
    crowding_distances 1 [[1], [1], [1]] [0, 1, 2] =
      [Fl.inf, Fl.nan, Fl.inf] := by
  decide

/-! ### NSGA-II selection (src/select/nsga.rs lines 26-61) -/

/-- The while loop of select_indices locating the first rank that does not
fit completely below n: each iteration reads counts[curr_rank] (none models
the index panic) and accumulates the count sum.  The fuel only bounds the
recursion; it is always sufficient, since curr_rank grows every step. -/
def findSplit : ℕ → List ℕ → ℕ → ℕ → ℕ → Option (ℕ × ℕ)
  | 0, _, _, _, _ => none
  | fuel + 1, counts, n, cr, cs =>
      match counts[cr]? with
      | none => none
      | some c =>
          if cs + c < n then findSplit fuel counts n (cr + 1) (cs + c)
          else some (cr, cs)

/-- Embedding of NSGA2::select_indices: rank the population, sort the index
range by rank, locate the split rank, crowd-sort the split rank's members
and fill the selection up to n.  none models the panics (counts index, the
empty-front index in the crowd sort, and the final slice when too short). -/
def select_indices (M : ℕ) (pop : List (List ℤ)) (n : ℕ) : Option (List ℕ) :=
  (findSplit ((rank_nondominated M pop).counts.length + 1)
      (rank_nondominated M pop).counts n 0 0).bind (fun p =>
    (sort_by_crowding_distance M pop
        ((((List.range pop.length).insertionSort
            (fun a b => (rank_nondominated M pop).ranks.getD a 0 ≤
              (rank_nondominated M pop).ranks.getD b 0)).drop p.2).take
          ((rank_nondominated M pop).counts.getD p.1 0))).bind
      (fun sorted_front =>
        if n - p.2 ≤ sorted_front.length then
          some (((List.range pop.length).insertionSort
            (fun a b => (rank_nondominated M pop).ranks.getD a 0 ≤
              (rank_nondominated M pop).ranks.getD b 0)).take p.2 ++
            sorted_front.take (n - p.2))
        else none))

/-- Embedding of NSGA2::select: retain the selected indices in place. -/
def NSGA2_select (M : ℕ) (k : ℕ) (pop : List (List ℤ)) :
    Option (List (List ℤ)) :=
  (select_indices M pop k).bind (fun sel => retain_indices pop sel)

/-- Counting values below c + 1 splits into below c and equal to c. -/
lemma countP_add_split (l : List ℕ) (f : ℕ → ℕ) (c : ℕ) :
    List.countP (fun v => decide (f v < c + 1)) l =
      List.countP (fun v => decide (f v < c)) l +
      List.countP (fun v => f v == c) l := by
  induction l with
  | nil => simp
  | cons a t ih =>
      rw [List.countP_cons, List.countP_cons, List.countP_cons, ih]
      simp only [decide_eq_true_eq, beq_iff_eq]
      split_ifs <;> omega

/-- In the final state, the prefix sums of the counts vector count the
members of rank below the cut. -/
lemma counts_prefix_sum (M : ℕ) (pop : List (List ℤ)) (st : BosState)
    (hfin : BosFinal M pop st) : ∀ c,
    ((List.range c).map (fun r => st.pareto.counts.getD r 0)).sum =
      List.countP (fun v => decide (st.pareto.ranks.getD v 0 < c))
        (List.range pop.length) := by
  intro c
  induction c with
  | zero =>
      symm
      simp only [List.range_zero, List.map_nil, List.sum_nil]
      rw [List.countP_eq_zero]
      intro v _
      simp
  | succ c ih =>
      rw [List.range_succ, List.map_append, List.sum_append]
      simp only [List.map_cons, List.map_nil, List.sum_cons, List.sum_nil]
      rw [ih, hfin.hcounts c, countP_add_split]
      omega

/-- The counts in the final state sum to the population size. -/
lemma counts_total (M : ℕ) (pop : List (List ℤ)) (st : BosState)
    (hfin : BosFinal M pop st) :
    ((List.range st.pareto.counts.length).map
      (fun r => st.pareto.counts.getD r 0)).sum = pop.length := by
  rw [counts_prefix_sum M pop st hfin]
  have h1 : List.countP
      (fun v => decide (st.pareto.ranks.getD v 0 < st.pareto.counts.length))
      (List.range pop.length) = (List.range pop.length).length := by
    rw [List.countP_eq_length]
    intro v hv
    rw [List.mem_range] at hv
    have := hfin.hrk_lt v hv
    rw [hfin.hcounts_len]
    simpa using this
  rw [h1, List.length_range]

/-- In a list sorted ascending by key, the first countP-(key < c) elements
are exactly those with key below c. -/
lemma sorted_take_lt (key : ℕ → ℕ) (c : ℕ) : ∀ (l : List ℕ),
    List.Pairwise (fun a b => key a ≤ key b) l →
    ((∀ x ∈ l.take (List.countP (fun v => decide (key v < c)) l),
        key x < c) ∧
     (∀ x ∈ l.drop (List.countP (fun v => decide (key v < c)) l),
        c ≤ key x)) := by
  intro l
  induction l with
  | nil =>
      intro _
      simp
  | cons a t ih =>
      intro hp
      obtain ⟨ha, ht⟩ := List.pairwise_cons.mp hp
      obtain ⟨ih1, ih2⟩ := ih ht
      by_cases hc : key a < c
      · have hcnt : List.countP (fun v => decide (key v < c)) (a :: t) =
            List.countP (fun v => decide (key v < c)) t + 1 := by
          rw [List.countP_cons, if_pos (by simpa using hc)]
        rw [hcnt]
        constructor
        · intro x hx
          rw [List.take_succ_cons] at hx
          rcases List.mem_cons.mp hx with rfl | hx'
          · exact hc
          · exact ih1 x hx'
        · intro x hx
          rw [List.drop_succ_cons] at hx
          exact ih2 x hx
      · have hcnt0 : List.countP (fun v => decide (key v < c)) (a :: t) =
            0 := by
          rw [List.countP_cons, if_neg (by simpa using hc)]
          have ht0 : List.countP (fun v => decide (key v < c)) t = 0 := by
            rw [List.countP_eq_zero]
            intro x hx
            have := ha x hx
            simp only [decide_eq_true_eq]
            omega
          omega
        rw [hcnt0]
        constructor
        · intro x hx
          rw [List.take_zero] at hx
          exact absurd hx (List.not_mem_nil x)
        · intro x hx
          rw [List.drop_zero] at hx
          rcases List.mem_cons.mp hx with rfl | hx'
          · omega
          · have := ha x hx'
            omega

/-- Prefix sums are unchanged past the end of the counts vector. -/
lemma partial_stable (counts : List ℕ) : ∀ cr, counts.length ≤ cr →
    ((List.range cr).map (fun r => counts.getD r 0)).sum =
      ((List.range counts.length).map (fun r => counts.getD r 0)).sum := by
  intro cr
  induction cr with
  | zero =>
      intro h
      have : counts.length = 0 := by omega
      rw [this]
  | succ m ih =>
      intro h
      rcases Nat.lt_or_ge counts.length (m + 1) with hlt | hge
      · have hm : counts.length ≤ m := by omega
        rw [List.range_succ, List.map_append, List.sum_append]
        simp only [List.map_cons, List.map_nil, List.sum_cons, List.sum_nil]
        rw [List.getD_eq_default _ _ hm, ih hm]
        omega
      · have : counts.length = m + 1 := by omega
        rw [this]

/-- The split loop terminates without a panic whenever 1 ≤ n ≤ the total
count, returning the first rank whose inclusion reaches n. -/
lemma findSplit_go (counts : List ℕ) (n : ℕ) : ∀ fuel cr,
    counts.length + 1 - cr ≤ fuel →
    ((List.range cr).map (fun r => counts.getD r 0)).sum < n →
    n ≤ ((List.range counts.length).map (fun r => counts.getD r 0)).sum →
    ∃ cr2 cs2, findSplit fuel counts n cr
        (((List.range cr).map (fun r => counts.getD r 0)).sum) =
        some (cr2, cs2) ∧
      cr2 < counts.length ∧
      cs2 = ((List.range cr2).map (fun r => counts.getD r 0)).sum ∧
      cs2 < n ∧ n ≤ cs2 + counts.getD cr2 0 := by
  intro fuel
  induction fuel with
  | zero =>
      intro cr h1 h2 h3
      exfalso
      have hcr : counts.length ≤ cr := by omega
      rw [partial_stable counts cr hcr] at h2
      omega
  | succ fuel ih =>
      intro cr h1 h2 h3
      by_cases hcr : cr < counts.length
      · have hsome : counts[cr]? = some (counts.getD cr 0) := by
          rw [List.getElem?_eq_getElem hcr, List.getD_eq_getElem _ _ hcr]
        have hpsucc : ((List.range (cr + 1)).map
            (fun r => counts.getD r 0)).sum =
            ((List.range cr).map (fun r => counts.getD r 0)).sum +
              counts.getD cr 0 := by
          rw [List.range_succ, List.map_append, List.sum_append]
          simp
        simp only [findSplit]
        rw [hsome]
        by_cases hlt : ((List.range cr).map (fun r => counts.getD r 0)).sum +
            counts.getD cr 0 < n
        · obtain ⟨cr2, cs2, heq, h4, h5, h6, h7⟩ :=
            ih (cr + 1) (by omega) (by rw [hpsucc]; exact hlt) h3
          rw [hpsucc] at heq
          refine ⟨cr2, cs2, ?_, h4, h5, h6, h7⟩
          simp only
          rw [if_pos hlt]
          exact heq
        · refine ⟨cr, _, ?_, hcr, rfl, h2, by omega⟩
          simp only
          rw [if_neg hlt]
      · exfalso
        rw [partial_stable counts cr (by omega)] at h2
        omega

lemma findSplit_spec (counts : List ℕ) (n : ℕ) (hn : 1 ≤ n)
    (hsum : n ≤ ((List.range counts.length).map
      (fun r => counts.getD r 0)).sum) :
    ∃ cr cs, findSplit (counts.length + 1) counts n 0 0 = some (cr, cs) ∧
      cr < counts.length ∧
      cs = ((List.range cr).map (fun r => counts.getD r 0)).sum ∧
      cs < n ∧ n ≤ cs + counts.getD cr 0 := by
  have h := findSplit_go counts n (counts.length + 1) 0 (by omega)
    (by simpa using hn) hsum
  simpa using h

/-- The sorted front of crowdStep. -/
lemma crowdStep_fst (pop : List (List ℤ)) (m : ℕ)
    (st : List (ℕ × ℕ) × List Fl) :
    (crowdStep pop m st).1 = st.1.insertionSort
      (fun a b => fitAt (pop.getD a.2 []) m ≤ fitAt (pop.getD b.2 []) m) :=
  rfl

/-- The objective loop only re-sorts the enumerated front. -/
lemma crowd_fold_perm (pop : List (List ℤ)) : ∀ (ms : List ℕ)
    (st : List (ℕ × ℕ) × List Fl),
    ((ms.foldl (fun st m => crowdStep pop m st) st).1).Perm st.1 := by
  intro ms
  induction ms with
  | nil =>
      intro st
      rw [List.foldl_nil]
  | cons m t ih =>
      intro st
      rw [List.foldl_cons]
      exact (ih (crowdStep pop m st)).trans
        (by rw [crowdStep_fst]; exact List.perm_insertionSort _ _)

lemma map_range_getD (l : List ℕ) (d : ℕ) :
    (List.range l.length).map (fun i => l.getD i d) = l := by
  apply List.ext_getElem
  · simp
  · intro n h1 h2
    rw [List.getElem_map, List.getElem_range]
    exact List.getD_eq_getElem _ _ h2

/-- A successful crowding sort permutes the front. -/
lemma sort_by_crowding_perm (M : ℕ) (pop : List (List ℤ))
    (front out : List ℕ)
    (h : sort_by_crowding_distance M pop front = some out) :
    out.Perm front := by
  unfold sort_by_crowding_distance at h
  split_ifs at h with hc
  injection h with h
  subst h
  have h1 := List.perm_insertionSort
      (fun a b : ℕ × ℕ =>
        flLeB ((((List.range M).foldl (fun st m => crowdStep pop m st)
          ((List.range front.length).map (fun i => (i, front.getD i 0)),
           List.replicate front.length (Fl.num 0))).2).getD b.1 (Fl.num 0))
          ((((List.range M).foldl (fun st m => crowdStep pop m st)
          ((List.range front.length).map (fun i => (i, front.getD i 0)),
           List.replicate front.length (Fl.num 0))).2).getD a.1 (Fl.num 0)))
      (((List.range M).foldl (fun st m => crowdStep pop m st)
        ((List.range front.length).map (fun i => (i, front.getD i 0)),
         List.replicate front.length (Fl.num 0))).1)
  have h2 := crowd_fold_perm pop (List.range M)
    ((List.range front.length).map (fun i => (i, front.getD i 0)),
     List.replicate front.length (Fl.num 0))
  have h3 := (h1.trans h2).map (fun p : ℕ × ℕ => p.2)
  have h6 : (((List.range front.length).map (fun i => (i, front.getD i 0)),
      List.replicate front.length (Fl.num 0)).1).map
      (fun p : ℕ × ℕ => p.2) = front := by
    show ((List.range front.length).map
      (fun i => (i, front.getD i 0))).map (fun p : ℕ × ℕ => p.2) = front
    rw [List.map_map]
    exact map_range_getD front 0
  rw [h6] at h3
  exact h3

/-- C2 (amended): for 1 ≤ k ≤ |pop| and at least one objective,
select_indices succeeds with exactly k distinct valid indices, select
leaves the population with exactly those k solutions, and every selected
index's non-dominated rank is at most the rank of every unselected
index. -/
theorem C2_select_amended (M : ℕ) (pop : List (List ℤ)) (k : ℕ)
    (hM : 0 < M) (hk1 : 1 ≤ k) (hkP : k ≤ pop.length) :
    ∃ sel out,
      select_indices M pop k = some sel ∧
      NSGA2_select M k pop = some out ∧
      sel.length = k ∧
      out.length = k ∧
      sel.Nodup ∧
      (∀ i ∈ sel, i < pop.length) ∧
      out.Perm (sel.filterMap (fun i => pop[i]?)) ∧
      (∀ i ∈ sel, ∀ j, j < pop.length → j ∉ sel →
        (rank_nondominated M pop).ranks.getD i 0 ≤
          (rank_nondominated M pop).ranks.getD j 0) := by
  have hP : 0 < pop.length := lt_of_lt_of_le hk1 hkP
  have hfin : BosFinal M pop (bosMain M pop (bosQ M pop) pop.length) :=
    bosMain_final M pop hM hP
  have h_total : ((List.range (rank_nondominated M pop).counts.length).map
      (fun r => (rank_nondominated M pop).counts.getD r 0)).sum =
      pop.length := counts_total M pop _ hfin
  have hprefix : ∀ c, ((List.range c).map
      (fun r => (rank_nondominated M pop).counts.getD r 0)).sum =
      List.countP
        (fun v => decide ((rank_nondominated M pop).ranks.getD v 0 < c))
        (List.range pop.length) := counts_prefix_sum M pop _ hfin
  obtain ⟨cr, cs, hsplit, hcrlen, hcs, hcsk, hkcs⟩ :=
    findSplit_spec (rank_nondominated M pop).counts k hk1
      (by rw [h_total]; exact hkP)
  set indices := (List.range pop.length).insertionSort
    (fun a b => (rank_nondominated M pop).ranks.getD a 0 ≤
      (rank_nondominated M pop).ranks.getD b 0) with hind
  have h_ind_perm : indices.Perm (List.range pop.length) := by
    rw [hind]
    exact List.perm_insertionSort _ _
  have h_ind_len : indices.length = pop.length := by
    rw [h_ind_perm.length_eq, List.length_range]
  have h_ind_nodup : indices.Nodup :=
    h_ind_perm.nodup_iff.mpr (List.nodup_range _)
  have h_ind_sorted : List.Pairwise
      (fun a b => (rank_nondominated M pop).ranks.getD a 0 ≤
        (rank_nondominated M pop).ranks.getD b 0) indices := by
    rw [hind]
    exact @List.sorted_insertionSort ℕ
      (fun a b => (rank_nondominated M pop).ranks.getD a 0 ≤
        (rank_nondominated M pop).ranks.getD b 0)
      (fun a b => by infer_instance)
      ⟨fun a b => le_total _ _⟩
      ⟨fun a b c h1 h2 => le_trans h1 h2⟩
      (List.range pop.length)
  have hcntP : ∀ (p : ℕ → Bool), indices.countP p =
      (List.range pop.length).countP p :=
    fun p => h_ind_perm.countP_congr (fun x _ => rfl)
  have hcs2 : cs = List.countP
      (fun v => decide ((rank_nondominated M pop).ranks.getD v 0 < cr))
      (List.range pop.length) := by
    rw [hcs]
    exact hprefix cr
  have hps : ((List.range (cr + 1)).map
      (fun r => (rank_nondominated M pop).counts.getD r 0)).sum =
      ((List.range cr).map
        (fun r => (rank_nondominated M pop).counts.getD r 0)).sum +
        (rank_nondominated M pop).counts.getD cr 0 := by
    rw [List.range_succ, List.map_append, List.sum_append]
    simp
  have hcs3 : cs + (rank_nondominated M pop).counts.getD cr 0 =
      List.countP
        (fun v => decide ((rank_nondominated M pop).ranks.getD v 0 < cr + 1))
        (List.range pop.length) := by
    rw [hcs, ← hps]
    exact hprefix (cr + 1)
  have hcountP_le : ∀ (p : ℕ → Bool),
      (List.range pop.length).countP p ≤ pop.length := by
    intro p
    have := List.countP_le_length (l := List.range pop.length) (p := p)
    simpa using this
  have hcsgd_le : cs + (rank_nondominated M pop).counts.getD cr 0 ≤
      pop.length := by
    rw [hcs3]
    exact hcountP_le _
  obtain ⟨htake_lt, hdrop_ge⟩ := by
    have h := sorted_take_lt
      (fun v => (rank_nondominated M pop).ranks.getD v 0) cr indices
      h_ind_sorted
    rw [hcntP, ← hcs2] at h
    exact h
  obtain ⟨htake2_lt, hdrop2_ge⟩ := by
    have h := sorted_take_lt
      (fun v => (rank_nondominated M pop).ranks.getD v 0) (cr + 1) indices
      h_ind_sorted
    rw [hcntP, ← hcs3] at h
    exact h
  have h_front_len : ((indices.drop cs).take
      ((rank_nondominated M pop).counts.getD cr 0)).length =
      (rank_nondominated M pop).counts.getD cr 0 := by
    rw [List.length_take, List.length_drop, h_ind_len]
    omega
  have h_front_ne : ¬ ((indices.drop cs).take
      ((rank_nondominated M pop).counts.getD cr 0)).isEmpty = true := by
    rw [List.isEmpty_iff_length_eq_zero, h_front_len]
    omega
  have h_front_eq : (indices.drop cs).take
      ((rank_nondominated M pop).counts.getD cr 0) =
      (indices.take (cs + (rank_nondominated M pop).counts.getD cr 0)).drop
        cs := by
    rw [List.drop_take]
    congr 1
    omega
  have h_front_rank : ∀ x ∈ (indices.drop cs).take
      ((rank_nondominated M pop).counts.getD cr 0),
      (rank_nondominated M pop).ranks.getD x 0 = cr := by
    intro x hx
    have h1 : cr ≤ (rank_nondominated M pop).ranks.getD x 0 :=
      hdrop_ge x (List.mem_of_mem_take hx)
    have h2 : (rank_nondominated M pop).ranks.getD x 0 < cr + 1 := by
      rw [h_front_eq] at hx
      exact htake2_lt x (List.mem_of_mem_drop hx)
    omega
  obtain ⟨sfront, hcrowd⟩ : ∃ sf, sort_by_crowding_distance M pop
      ((indices.drop cs).take
        ((rank_nondominated M pop).counts.getD cr 0)) = some sf := by
    unfold sort_by_crowding_distance
    rw [if_neg (by rw [not_and]; intro hcon; exact absurd hcon h_front_ne)]
    exact ⟨_, rfl⟩
  have h_sf_perm : sfront.Perm ((indices.drop cs).take
      ((rank_nondominated M pop).counts.getD cr 0)) :=
    sort_by_crowding_perm M pop _ _ hcrowd
  have h_sf_len : sfront.length = (rank_nondominated M pop).counts.getD cr 0 := by
    rw [h_sf_perm.length_eq, h_front_len]
  have hguard : k - cs ≤ sfront.length := by
    rw [h_sf_len]
    omega
  have hsel : select_indices M pop k =
      some (indices.take cs ++ sfront.take (k - cs)) := by
    unfold select_indices
    rw [hsplit, Option.some_bind]
    dsimp only
    rw [← hind, hcrowd, Option.some_bind]
    rw [if_pos hguard]
  have h_sel_len : (indices.take cs ++ sfront.take (k - cs)).length = k := by
    rw [List.length_append, List.length_take, List.length_take, h_ind_len,
      h_sf_len]
    omega
  have h_sel_ne : (indices.take cs ++ sfront.take (k - cs)) ≠ [] := by
    intro hcon
    have := congrArg List.length hcon
    rw [h_sel_len] at this
    simp at this
    omega
  have h_mem_front_of_take : ∀ x ∈ sfront.take (k - cs),
      x ∈ (indices.drop cs).take
        ((rank_nondominated M pop).counts.getD cr 0) := by
    intro x hx
    exact h_sf_perm.subset (List.mem_of_mem_take hx)
  have h_sel_valid : ∀ i ∈ indices.take cs ++ sfront.take (k - cs),
      i < pop.length := by
    intro i hi
    rcases List.mem_append.mp hi with h1 | h1
    · have : i ∈ indices := List.mem_of_mem_take h1
      have := h_ind_perm.subset this
      simpa using this
    · have h2 := h_mem_front_of_take i h1
      have : i ∈ indices := List.mem_of_mem_drop (List.mem_of_mem_take h2)
      have := h_ind_perm.subset this
      simpa using this
  have h_front_nodup : ((indices.drop cs).take
      ((rank_nondominated M pop).counts.getD cr 0)).Nodup :=
    ((List.take_sublist _ _).trans (List.drop_sublist _ _)).nodup h_ind_nodup
  have h_sel_nodup : (indices.take cs ++ sfront.take (k - cs)).Nodup := by
    rw [List.nodup_append]
    refine ⟨(List.take_sublist _ _).nodup h_ind_nodup,
      (List.take_sublist _ _).nodup (h_sf_perm.nodup_iff.mpr h_front_nodup),
      ?_⟩
    intro a ha hb
    have hdisj : List.Disjoint (indices.take cs) (indices.drop cs) :=
      (List.nodup_append.mp
        (by rw [List.take_append_drop]; exact h_ind_nodup)).2.2
    exact hdisj ha
      (List.mem_of_mem_take (h_mem_front_of_take a hb))
  obtain ⟨out, hro, hout_len, hout_perm⟩ :=
    retain_indices_spec pop (indices.take cs ++ sfront.take (k - cs))
      h_sel_ne h_sel_valid
  have hNSGA : NSGA2_select M k pop = some out := by
    unfold NSGA2_select
    rw [hsel, Option.some_bind]
    exact hro
  refine ⟨indices.take cs ++ sfront.take (k - cs), out, hsel, hNSGA,
    h_sel_len, by rw [hout_len, h_sel_len], h_sel_nodup, h_sel_valid,
    hout_perm, ?_⟩
  intro i hi j hj hjsel
  have hrank_i : (rank_nondominated M pop).ranks.getD i 0 ≤ cr := by
    rcases List.mem_append.mp hi with h1 | h1
    · have h2 : (rank_nondominated M pop).ranks.getD i 0 < cr :=
        htake_lt i h1
      omega
    · rw [h_front_rank i (h_mem_front_of_take i h1)]
  have hrank_j : cr ≤ (rank_nondominated M pop).ranks.getD j 0 := by
    have hjind : j ∈ indices :=
      h_ind_perm.mem_iff.mpr (by rw [List.mem_range]; omega)
    have hjtd : j ∈ indices.take cs ∨ j ∈ indices.drop cs := by
      rcases List.mem_append.mp
        (by rw [List.take_append_drop]; exact hjind :
          j ∈ indices.take cs ++ indices.drop cs) with h | h
      · exact Or.inl h
      · exact Or.inr h
    rcases hjtd with h1 | h1
    · exfalso
      exact hjsel (List.mem_append.mpr (Or.inl h1))
    · exact hdrop_ge j h1
  omega

/-- C2 counterexample at k = 0: the claim's "every k ≤ |P|" includes 0,
but select with k = 0 panics inside retain_indices (indexing an empty
sorted index list), modeled by none. -/
theorem C2_select_zero_counterexample :
    NSGA2_select 2 0 [[0, 1], [1, 0]] = none := by
  decide

theorem C2_select_amended_witness :
    0 < 1 ∧ 1 ≤ 2 ∧ 2 ≤ ([[3], [2], [1]] : List (List ℤ)).length ∧
    (∃ sel out,
      select_indices 1 [[3], [2], [1]] 2 = some sel ∧
      NSGA2_select 1 2 [[3], [2], [1]] = some out ∧
      sel.length = 2 ∧
      out.length = 2 ∧
      sel.Nodup ∧
      (∀ i ∈ sel, i < ([[3], [2], [1]] : List (List ℤ)).length) ∧
      out.Perm (sel.filterMap
        (fun i => ([[3], [2], [1]] : List (List ℤ))[i]?)) ∧
      (∀ i ∈ sel, ∀ j, j < ([[3], [2], [1]] : List (List ℤ)).length →
        j ∉ sel →
        (rank_nondominated 1 [[3], [2], [1]]).ranks.getD i 0 ≤
          (rank_nondominated 1 [[3], [2], [1]]).ranks.getD j 0)) :=
  ⟨by decide, by decide, by decide,
   C2_select_amended 1 [[3], [2], [1]] 2 (by decide) (by decide) (by decide)⟩

/-! ### BestPareto hall of fame (src/hof.rs lines 176-189) -/

/-- The stored front after BestPareto::record's push loop: the old front
followed by the incoming generation's rank-0 members in order. -/
def paretoAppend (M : ℕ) (F g : List (List ℤ)) : List (List ℤ) :=
  F ++ ((List.range g.length).filter
    (fun i => (rank_nondominated M g).ranks.getD i 0 == 0)).map
    (fun i => g.getD i [])

/-- Embedding of BestPareto::record: append the generation's rank-0
members, re-rank the stored front and retain its rank-0 positions.  none
models the panic inside retain_indices when the index list is empty. -/
def bestParetoRecord (M : ℕ) (F g : List (List ℤ)) :
    Option (List (List ℤ)) :=
  retain_indices (paretoAppend M F g)
    ((List.range (paretoAppend M F g).length).filter
      (fun i =>
        (rank_nondominated M (paretoAppend M F g)).ranks.getD i 0 == 0))

lemma StrictDom_trans (M : ℕ) (a b c : List ℤ) (h1 : StrictDom M a b)
    (h2 : StrictDom M b c) : StrictDom M a c :=
  fun j hj => lt_trans (h2 j hj) (h1 j hj)

lemma getD_mem_of_lt' (L : List (List ℤ)) (j : ℕ) (h : j < L.length) :
    L.getD j [] ∈ L := by
  rw [List.getD_eq_getElem _ _ h]
  exact List.getElem_mem h

/-- A value of the list occupies a rank-0 position exactly when no member
of the list strictly dominates it. -/
lemma nd_mem_iff (M : ℕ) (L : List (List ℤ)) (v : List ℤ) (hM : 0 < M)
    (hP : 0 < L.length) :
    (∃ i, i < L.length ∧ (rank_nondominated M L).ranks.getD i 0 = 0 ∧
      L.getD i [] = v) ↔
    (v ∈ L ∧ ∀ w ∈ L, ¬ StrictDom M w v) := by
  have hfin : BosFinal M L (bosMain M L (bosQ M L) L.length) :=
    bosMain_final M L hM hP
  constructor
  · rintro ⟨i, hi, hrk, hv⟩
    have hnd : NonDominated M L i := (hfin.hcore i hi).mp hrk
    constructor
    · rw [← hv]
      exact getD_mem_of_lt' L i hi
    · intro w hw hsd
      obtain ⟨j, hj, hjw⟩ := List.mem_iff_getElem.mp hw
      apply hnd j hj
      show StrictDom M (L.getD j []) (L.getD i [])
      rw [List.getD_eq_getElem _ _ hj, hjw, hv]
      exact hsd
  · rintro ⟨hv, hno⟩
    obtain ⟨i, hi, hiv⟩ := List.mem_iff_getElem.mp hv
    refine ⟨i, hi, ?_, by rw [List.getD_eq_getElem _ _ hi, hiv]⟩
    apply (hfin.hcore i hi).mpr
    intro w hw hsd
    apply hno (L.getD w []) (getD_mem_of_lt' L w hw)
    show StrictDom M (L.getD w []) v
    have : L.getD i [] = v := by rw [List.getD_eq_getElem _ _ hi, hiv]
    rw [← this]
    exact hsd

/-- Value-level maximal dominator: a dominated value has a dominator that
is itself non-dominated in the list. -/
lemma exists_maximal_dominator_val (M : ℕ) (L : List (List ℤ)) (hM : 0 < M)
    (v : List ℤ) (hdom : ∃ w ∈ L, StrictDom M w v) :
    ∃ d ∈ L, StrictDom M d v ∧ ∀ e ∈ L, ¬ StrictDom M e d := by
  classical
  set D : Finset ℕ := (Finset.range L.length).filter
    (fun w => StrictDom M (L.getD w []) v) with hD
  have hne : D.Nonempty := by
    obtain ⟨w, hw, hsd⟩ := hdom
    obtain ⟨j, hj, hjw⟩ := List.mem_iff_getElem.mp hw
    refine ⟨j, ?_⟩
    rw [hD, Finset.mem_filter, Finset.mem_range]
    refine ⟨hj, ?_⟩
    rw [List.getD_eq_getElem _ _ hj, hjw]
    exact hsd
  obtain ⟨d, hdmem, hdmax⟩ :=
    Finset.exists_max_image D (fun w => fitAt (L.getD w []) 0) hne
  rw [hD, Finset.mem_filter, Finset.mem_range] at hdmem
  refine ⟨L.getD d [], getD_mem_of_lt' L d hdmem.1, hdmem.2, ?_⟩
  intro e he hconte
  obtain ⟨j, hj, hje⟩ := List.mem_iff_getElem.mp he
  have hjd : StrictDom M (L.getD j []) (L.getD d []) := by
    rw [List.getD_eq_getElem _ _ hj, hje]
    exact hconte
  have hjv : StrictDom M (L.getD j []) v :=
    StrictDom_trans M _ _ _ hjd hdmem.2
  have hjD : j ∈ D := by
    rw [hD, Finset.mem_filter, Finset.mem_range]
    exact ⟨hj, hjv⟩
  have h0 : fitAt (L.getD j []) 0 ≤ fitAt (L.getD d []) 0 := hdmax j hjD
  have h1 : fitAt (L.getD d []) 0 < fitAt (L.getD j []) 0 := hjd 0 hM
  omega

/-- Membership in a successful record result: exactly the members of the
appended front that no member of the appended front strictly dominates. -/
lemma record_mem_iff (M : ℕ) (F g out : List (List ℤ)) (hM : 0 < M)
    (h : bestParetoRecord M F g = some out) (v : List ℤ) :
    v ∈ out ↔ (v ∈ paretoAppend M F g ∧
      ∀ w ∈ paretoAppend M F g, ¬ StrictDom M w v) := by
  have hidx_valid : ∀ e ∈ (List.range (paretoAppend M F g).length).filter
      (fun i =>
        (rank_nondominated M (paretoAppend M F g)).ranks.getD i 0 == 0),
      e < (paretoAppend M F g).length := by
    intro e he
    have := List.mem_of_mem_filter he
    simpa using this
  have hidx_ne : (List.range (paretoAppend M F g).length).filter
      (fun i =>
        (rank_nondominated M (paretoAppend M F g)).ranks.getD i 0 == 0) ≠
      [] := by
    intro hcon
    unfold bestParetoRecord at h
    rw [hcon] at h
    unfold retain_indices at h
    simp at h
  have hP : 0 < (paretoAppend M F g).length := by
    rcases Nat.eq_zero_or_pos (paretoAppend M F g).length with h0 | h0
    · exfalso
      apply hidx_ne
      rw [h0]
      simp
    · exact h0
  obtain ⟨out2, hro, hlen2, hperm2⟩ :=
    retain_indices_spec (paretoAppend M F g) _ hidx_ne hidx_valid
  have hout2 : out = out2 := by
    unfold bestParetoRecord at h
    rw [h] at hro
    injection hro
  subst hout2
  rw [hperm2.mem_iff, List.mem_filterMap]
  constructor
  · rintro ⟨i, hi, hiv⟩
    have hi2 := List.mem_filter.mp hi
    have hilen : i < (paretoAppend M F g).length := by
      have := hi2.1
      simpa using this
    have hrk : (rank_nondominated M (paretoAppend M F g)).ranks.getD i 0 =
        0 := by
      have := hi2.2
      simpa using this
    apply (nd_mem_iff M (paretoAppend M F g) v hM hP).mp
    refine ⟨i, hilen, hrk, ?_⟩
    rw [List.getD_eq_getElem _ _ hilen]
    rw [List.getElem?_eq_getElem hilen] at hiv
    injection hiv
  · intro hv
    obtain ⟨i, hilen, hrk, hiv⟩ :=
      (nd_mem_iff M (paretoAppend M F g) v hM hP).mpr hv
    refine ⟨i, ?_, ?_⟩
    · rw [List.mem_filter]
      constructor
      · rw [List.mem_range]
        exact hilen
      · simpa using hrk
    · rw [List.getElem?_eq_getElem hilen, ← List.getD_eq_getElem _ _ hilen,
        hiv]

/-- C7 counterexample: recording the one-member generation [[0]] on an
empty hall stores one copy; recording it again appends a second copy that
ties (rank 0) with the first, so the stored front after two records is
[[0], [0]] — not equal as a multiset to the single-record front [[0]]. -/
theorem C7_record_counterexample :
    bestParetoRecord 1 [] [[0]] = some [[0]] ∧
    bestParetoRecord 1 [[0]] [[0]] = some [[0], [0]] ∧
    ¬ ([[0], [0]] : List (List ℤ)).Perm [[0]] := by
  refine ⟨by decide, by decide, by decide⟩

/-- C7 (amended): recording the same generation twice leaves the stored
front with exactly the same set of solutions as recording it once
(duplicates can accumulate, so equality holds for membership, not as
multisets). -/
theorem C7_record_amended (M : ℕ) (front gen : List (List ℤ)) (hM : 0 < M)
    (F1 F2 : List (List ℤ))
    (h1 : bestParetoRecord M front gen = some F1)
    (h2 : bestParetoRecord M F1 gen = some F2) :
    ∀ v, v ∈ F2 ↔ v ∈ F1 := by
  intro v
  have hc1 := record_mem_iff M front gen F1 hM h1
  have hc2 := record_mem_iff M F1 gen F2 hM h2
  have hL2sub : ∀ w, w ∈ paretoAppend M F1 gen →
      w ∈ paretoAppend M front gen := by
    intro w hw
    rcases List.mem_append.mp hw with hwf | hwa
    · exact ((hc1 w).mp hwf).1
    · exact List.mem_append.mpr (Or.inr hwa)
  rw [hc1 v, hc2 v]
  constructor
  · rintro ⟨hvL2, hnd2⟩
    have hvL1 : v ∈ paretoAppend M front gen := hL2sub v hvL2
    refine ⟨hvL1, ?_⟩
    intro w hw hsd
    obtain ⟨d, hdL1, hdv, hdnd⟩ :=
      exists_maximal_dominator_val M (paretoAppend M front gen) hM v
        ⟨w, hw, hsd⟩
    have hdF1 : d ∈ F1 := (hc1 d).mpr ⟨hdL1, hdnd⟩
    have hdL2 : d ∈ paretoAppend M F1 gen :=
      List.mem_append.mpr (Or.inl hdF1)
    exact hnd2 d hdL2 hdv
  · rintro ⟨hvL1, hnd1⟩
    refine ⟨List.mem_append.mpr (Or.inl ((hc1 v).mpr ⟨hvL1, hnd1⟩)), ?_⟩
    intro w hw
    exact hnd1 w (hL2sub w hw)

theorem C7_record_amended_witness :
    0 < 1 ∧
    bestParetoRecord 1 [] [[0]] = some [[0]] ∧
    bestParetoRecord 1 [[0]] [[0]] = some [[0], [0]] ∧
    (∀ v, v ∈ ([[0], [0]] : List (List ℤ)) ↔ v ∈ ([[0]] : List (List ℤ))) :=
  ⟨by decide, by decide, by decide,
   C7_record_amended 1 [] [[0]] (by decide) [[0]] [[0], [0]]
     (by decide) (by decide)⟩

end Eviolite